import Mathlib

/-!
Verification development for the websvg2png browser extension.

The embedding models, close to the TypeScript source:
  * `cleanSvgString`, `svgToDataUrl` (src/sidepanel.tsx): markup normalization and
    the interactive rasterization path;
  * `svgToBase64`, `processImage` (src/contents/offscreen/index.ts): the
    isolated-context rasterization path;
  * `getSVGDimensions`, `scanSVGElements`, the scan cache
    (src/content.ts): the Scanner;
  * `PRESET_SIZES`, `downloadAllSizes`, `handleDownload`, `retryOnError`
    (src/sidepanel.tsx): the Panel orchestration.

Strings are handled as `List Char`; numbers as `ℚ` (JS numbers are IEEE doubles;
none of the verified statements depends on rounding).
-/

/-- JS `\s` whitespace, restricted to the ASCII range (the markup handled by the
extension is serialized DOM text; the unicode space code points behave the same
way in every rewrite below). -/
def isWsChar (c : Char) : Bool :=
  c == ' ' || c == '\t' || c == '\n' || c == '\r' || c == '\x0b' || c == '\x0c'

/-- `.replace(/\n/g, ' ')` : every newline becomes a space. -/
def nlToSpace (l : List Char) : List Char :=
  l.map (fun c => if c == '\n' then ' ' else c)

/-- The length of `dropWhile` never exceeds the input length. -/
theorem lengthDropWhileLe (p : Char → Bool) (l : List Char) :
    (l.dropWhile p).length ≤ l.length := by
  induction l with
  | nil => simp [List.dropWhile]
  | cons a l ih =>
    simp only [List.dropWhile]
    split
    · exact Nat.le_succ_of_le ih
    · exact Nat.le_refl _

/-- `.replace(/\s+/g, ' ')` : each maximal whitespace run becomes one space. -/
def collapseWs : List Char → List Char
  | [] => []
  | c :: l =>
    if isWsChar c then ' ' :: collapseWs (l.dropWhile isWsChar)
    else c :: collapseWs l
termination_by l => l.length
decreasing_by
  · have := lengthDropWhileLe isWsChar l
    simp only [List.length_cons]
    omega
  · simp only [List.length_cons]
    omega

/-- `.replace(/>\s+</g, '><')` : drop a whitespace run lying between `>` and `<`.
The scan mirrors the regex engine: left to right, non-overlapping matches. -/
def rmTagWs : List Char → List Char
  | [] => []
  | c :: rest =>
    if c == '>' then
      if (rest.takeWhile isWsChar).isEmpty then '>' :: rmTagWs rest
      else
        match h : rest.dropWhile isWsChar with
        | '<' :: r => '>' :: '<' :: rmTagWs r
        | _ => '>' :: rmTagWs rest
    else c :: rmTagWs rest
termination_by l => l.length
decreasing_by
  · simp only [List.length_cons]
    omega
  · have h1 := lengthDropWhileLe isWsChar l
    rw [h] at h1
    simp only [List.length_cons] at h1 ⊢
    omega
  · simp only [List.length_cons]
    omega
  · simp only [List.length_cons]
    omega

/-- Does `pat` occur at the head of `l`? -/
def isPre : List Char → List Char → Bool
  | [], _ => true
  | _ :: _, [] => false
  | p :: ps, c :: cs => p == c && isPre ps cs

/-- `.replace(/pat/g, rep)` for a literal pattern: scan left to right, replace
each non-overlapping occurrence. -/
def replaceAllL (pat rep : List Char) : List Char → List Char
  | [] => []
  | c :: rest =>
    if pat.isEmpty then c :: rest
    else if isPre pat (c :: rest) then
      rep ++ replaceAllL pat rep (rest.drop (pat.length - 1))
    else c :: replaceAllL pat rep rest
termination_by l => l.length
decreasing_by
  · simp only [List.length_cons, List.length_drop]
    omega
  · simp only [List.length_cons]
    omega

/-- `.replace(/pat/, rep)` for a literal pattern: only the first occurrence. -/
def replaceFirstL (pat rep : List Char) : List Char → List Char
  | [] => []
  | c :: rest =>
    if pat.isEmpty then c :: rest
    else if isPre pat (c :: rest) then rep ++ rest.drop (pat.length - 1)
    else c :: replaceFirstL pat rep rest

/-- Split at each non-overlapping occurrence of `pat` (left-to-right scan),
dropping the occurrences; the spec-side description of a global rewrite. -/
def splitOnSub (pat : List Char) : List Char → List (List Char)
  | [] => [[]]
  | c :: rest =>
    if pat.isEmpty then [c :: rest]
    else if isPre pat (c :: rest) then
      [] :: splitOnSub pat (rest.drop (pat.length - 1))
    else
      match splitOnSub pat rest with
      | [] => [[c]]
      | g :: gs => (c :: g) :: gs
termination_by l => l.length
decreasing_by
  · simp only [List.length_cons, List.length_drop]
    omega
  · simp only [List.length_cons]
    omega

/-- Interleave `sep` between the groups. -/
def joinWith (sep : List Char) : List (List Char) → List Char
  | [] => []
  | [g] => g
  | g :: g2 :: gs => g ++ sep ++ joinWith sep (g2 :: gs)

/-- The namespace declaration spliced onto the first `<svg` by `cleanSvgString`. -/
def svgDecl : List Char := "<svg xmlns=\"http://www.w3.org/2000/svg\"".data

/-- The first five rewrites of `cleanSvgString` (src/sidepanel.tsx:93-102). -/
def cleanStage5 (s : String) : List Char :=
  replaceAllL "xmlns:xlink".data "xmlns".data
    (replaceAllL "xlink:href".data "href".data
      (rmTagWs (collapseWs (nlToSpace s.data))))

/-- `cleanSvgString` (src/sidepanel.tsx:93-102): strip newlines into spaces,
collapse whitespace runs, drop whitespace between adjacent tags, rewrite
`xlink:href` → `href` and `xmlns:xlink` → `xmlns`, and splice a default
`xmlns` declaration onto the first `<svg`. -/
def cleanSvgString (s : String) : String :=
  ⟨replaceFirstL "<svg".data svgDecl (cleanStage5 s)⟩

/-- The base64 alphabet used by `btoa`. -/
def b64Alphabet : List Char :=
  "ABCDEFGHIJKLMNOPQRSTUVWXYZabcdefghijklmnopqrstuvwxyz0123456789+/".data

/-- The character for a 6-bit group. -/
def b64Char (n : ℕ) : Char := b64Alphabet.getD n 'A'

/-- The 6-bit group of a base64 character. -/
def b64Val (c : Char) : ℕ := (b64Alphabet.indexOf c)

/-- `btoa` on a byte sequence: 3-byte groups to 4 characters, `=` padding. -/
def base64EncodeBytes : List ℕ → List Char
  | [] => []
  | [a] => [b64Char (a / 4), b64Char (a % 4 * 16), '=', '=']
  | [a, b] => [b64Char (a / 4), b64Char (a % 4 * 16 + b / 16), b64Char (b % 16 * 4), '=']
  | a :: b :: c :: rest =>
    b64Char (a / 4) :: b64Char (a % 4 * 16 + b / 16) ::
      b64Char (b % 16 * 4 + c / 64) :: b64Char (c % 64) :: base64EncodeBytes rest

/-- `atob` restricted to well-formed input: 4-character groups back to bytes. -/
def base64DecodeChars : List Char → List ℕ
  | c1 :: c2 :: c3 :: c4 :: rest =>
    if c3 = '=' then [b64Val c1 * 4 + b64Val c2 / 16]
    else if c4 = '=' then
      [b64Val c1 * 4 + b64Val c2 / 16, b64Val c2 % 16 * 16 + b64Val c3 / 4]
    else
      (b64Val c1 * 4 + b64Val c2 / 16) :: (b64Val c2 % 16 * 16 + b64Val c3 / 4) ::
        (b64Val c3 % 4 * 64 + b64Val c4) :: base64DecodeChars rest
  | _ => []

/-- The UTF-8 bytes of a string, as naturals.  `unescape(encodeURIComponent(s))`
maps each UTF-8 byte of `s` to one latin-1 code unit, so `btoa` of that string
is exactly base64 of the UTF-8 bytes. -/
def utf8Bytes (s : String) : List ℕ := s.toUTF8.toList.map UInt8.toNat

/-- `svgToBase64` (src/contents/offscreen/index.ts:2-4). -/
def svgToBase64 (s : String) : String :=
  "data:image/svg+xml;base64," ++ ⟨base64EncodeBytes (utf8Bytes s)⟩

/-! ## Scanner dimension resolution (src/content.ts:83-126) -/

/-- The value of the digit string (most significant first). -/
def digitsVal (l : List Char) : ℕ :=
  l.foldl (fun acc c => acc * 10 + (c.toNat - 48)) 0

/-- The fractional digits of a digits-and-dots string: what follows a dot right
after the integer part. -/
def floatFracDigits (t : List Char) : List Char :=
  match t.drop (t.takeWhile Char.isDigit).length with
  | '.' :: r2 => r2.takeWhile Char.isDigit
  | _ => []

/-- JS `parseFloat` on a string made of digits and dots: integer part, then an
optional fractional part up to the next non-digit; `"."` alone is `NaN`,
reported as `none`. -/
def parseFloatQ (t : List Char) : Option ℚ :=
  if (t.takeWhile Char.isDigit).isEmpty && (floatFracDigits t).isEmpty then none
  else some ((digitsVal (t.takeWhile Char.isDigit) : ℚ)
    + (digitsVal (floatFracDigits t) : ℚ) / ((10 ^ (floatFracDigits t).length : ℕ) : ℚ))

/-- `parseSize` (src/content.ts:116-120) followed by the truthiness test of its
use sites: `some q` iff `parseSize` yields a nonzero, non-`NaN` number (a `null`
string, a string without a leading `[\d.]` match, a `NaN` parse and a zero value
are all falsy at `parseSize(w) || clientWidth || 100`). -/
def parseSizePos (s : Option String) : Option ℚ :=
  match s with
  | none => none
  | some str =>
    if (str.data.takeWhile (fun c => c.isDigit || c == '.')).isEmpty then none
    else
      match parseFloatQ (str.data.takeWhile (fun c => c.isDigit || c == '.')) with
      | none => none
      | some q => if q = 0 then none else some q

/-- JS truthiness of `getAttribute` results and style strings: `null` and the
empty string are falsy. -/
def truthyAttr : Option String → Bool
  | none => false
  | some s => !s.data.isEmpty

/-- The browser-supplied state read by `getSVGDimensions` for one SVG element:
its markup attributes, computed style strings, `getBBox` result (already
stringified; `none` when `getBBox` throws) and client box. -/
structure SVGElementState where
  widthAttr : Option String
  heightAttr : Option String
  viewBoxAttr : Option String
  styleWidth : String
  styleHeight : String
  bbox : Option (String × String)
  clientWidth : ℕ
  clientHeight : ℕ
deriving DecidableEq

/-- The `width`/`height` string pair held by `getSVGDimensions` right before
`parseSize`: attributes, then components 3 and 4 of a four-component `viewBox`
when one of them is falsy and a `viewBox` is present, then computed style, then
the stringified `getBBox` values (src/content.ts:84-113). -/
def resolvedWH (e : SVGElementState) : Option String × Option String :=
  let w0 := e.widthAttr
  let h0 := e.heightAttr
  let wh1 :=
    if (!truthyAttr w0 || !truthyAttr h0) && truthyAttr e.viewBoxAttr then
      match (e.viewBoxAttr.getD "").splitOn " " with
      | [_, _, c, d] => (some c, some d)
      | _ => (w0, h0)
    else (w0, h0)
  let wh2 :=
    if !truthyAttr wh1.1 || !truthyAttr wh1.2 then
      (some e.styleWidth, some e.styleHeight)
    else wh1
  if !truthyAttr wh2.1 || !truthyAttr wh2.2 then
    match e.bbox with
    | some bb => (some bb.1, some bb.2)
    | none => wh2
  else wh2

/-- `parseSize(x) || client || 100` (src/content.ts:122-125), one axis. -/
def finishAxis (x : Option String) (client : ℕ) : ℚ :=
  match parseSizePos x with
  | some q => q
  | none => if client ≠ 0 then (client : ℚ) else 100

/-- `getSVGDimensions` (src/content.ts:83-126). -/
def getSVGDimensions (e : SVGElementState) : ℚ × ℚ :=
  (finishAxis (resolvedWH e).1 e.clientWidth,
   finishAxis (resolvedWH e).2 e.clientHeight)

/-! ## Panel data and export orchestration (src/sidepanel.tsx) -/

/-- JS number rendering, needed only for the integral values that reach
filenames in these claims. -/
def qToStr (q : ℚ) : String :=
  if q.den = 1 then toString q.num else toString q

/-- One entry of `PRESET_SIZES`. -/
structure PresetSize where
  width : ℚ
  height : ℚ
  label : String
deriving DecidableEq

/-- `PRESET_SIZES` (src/sidepanel.tsx:16-24). -/
def PRESET_SIZES : List PresetSize :=
  [⟨16, 16, "16x16"⟩, ⟨32, 32, "32x32"⟩, ⟨48, 48, "48x48"⟩, ⟨128, 128, "128x128"⟩,
   ⟨0, 0, "原始尺寸"⟩, ⟨-1, -1, "下载所有尺寸"⟩, ⟨-2, -2, "自定义尺寸"⟩]

/-- One discovered graphic as the panel stores it. -/
structure SVGItem where
  id : ℕ
  outerHTML : String
  dimWidth : ℚ
  dimHeight : ℚ
deriving DecidableEq

/-- JS `a || b` on numbers, at the sites where `a` is a preset entry
(`16 … 128` or `0`): `0` is falsy. -/
def jsOr (a b : ℚ) : ℚ := if a = 0 then b else a

/-- `svg_<id>_<width>x<height>.png` (src/sidepanel.tsx:210). -/
def pngName (id : ℕ) (w h : ℚ) : String :=
  "svg_" ++ toString id ++ "_" ++ qToStr w ++ "x" ++ qToStr h ++ ".png"

/-- What one `downloadAllSizes` run produces: the rasterization calls made, the
zip entries written, the archive name, and how many `chrome.downloads.download`
calls are issued. -/
structure AllSizesRun where
  rasterCalls : List (String × ℚ × ℚ)
  zipEntries : List String
  zipName : String
  downloadCount : ℕ
deriving DecidableEq

/-- `downloadAllSizes` (src/sidepanel.tsx:198-236): filter the presets with
`width >= 0`, rasterize the item's markup at `size || dimensions`, file each
PNG under `svg_<id>_<w>x<h>.png`, and download one archive
`svg_<id>_all_sizes.zip`. -/
def downloadAllSizes (svg : SVGItem) : AllSizesRun :=
  let sizes := PRESET_SIZES.filter (fun s => s.width ≥ 0)
  let dims := sizes.map (fun s => (jsOr s.width svg.dimWidth, jsOr s.height svg.dimHeight))
  { rasterCalls := dims.map (fun wh => (svg.outerHTML, wh.1, wh.2))
    zipEntries := dims.map (fun wh => pngName svg.id wh.1 wh.2)
    zipName := "svg_" ++ toString svg.id ++ "_all_sizes.zip"
    downloadCount := 1 }

/-- The custom-size state kept per item (`keepRatio` in the source). -/
structure CustomSize where
  width : ℚ
  height : ℚ
  keepAspect : Bool
deriving DecidableEq

/-- The observable effect of one `handleDownload` run: rasterization calls made
and files passed to `chrome.downloads.download`. -/
structure DownloadRun where
  rasterCalls : List (String × ℚ × ℚ)
  downloads : List String
deriving DecidableEq

/-- `handleDownload` (src/sidepanel.tsx:424-475): `-1` dispatches to the
archive path, `-2` validates the stored custom size
(`!customSize || width <= 0 || height <= 0` rejects before any canvas work),
and other presets use `size || dimensions`. -/
def handleDownload (svg : SVGItem) (selected : PresetSize)
    (customSize : Option CustomSize) : Except String DownloadRun :=
  if selected.width = -1 then
    let r := downloadAllSizes svg
    .ok ⟨r.rasterCalls, [r.zipName]⟩
  else if selected.width = -2 then
    match customSize with
    | none => .error "请输入有效的自定义尺寸"
    | some cs =>
      if cs.width ≤ 0 ∨ cs.height ≤ 0 then .error "请输入有效的自定义尺寸"
      else .ok ⟨[(svg.outerHTML, cs.width, cs.height)], [pngName svg.id cs.width cs.height]⟩
  else
    let w := jsOr selected.width svg.dimWidth
    let h := jsOr selected.height svg.dimHeight
    .ok ⟨[(svg.outerHTML, w, h)], [pngName svg.id w h]⟩

/-! ## Canvas rasterization models -/

/-- One 2D-context operation performed while rasterizing. -/
inductive CanvasOp where
  | fillRect (style : String) (x y w h : ℚ)
  | drawImage (x y w h : ℚ)
deriving DecidableEq

/-- `Element.setAttribute` on an attribute list: overwrite in place, else append. -/
def setAttribute (attrs : List (String × String)) (n v : String) :
    List (String × String) :=
  if attrs.any (fun p => p.1 == n) then
    attrs.map (fun p => if p.1 == n then (n, v) else p)
  else attrs ++ [(n, v)]

/-- Attribute lookup (first match). -/
def lookupAttr (attrs : List (String × String)) (n : String) : Option String :=
  (attrs.find? (fun p => p.1 == n)).map (fun p => p.2)

/-- The observable trace of the interactive rasterization path: the cleaned
markup, the root element's attributes at encoding time, and the canvas work. -/
structure RasterRun where
  cleaned : String
  rootAttrs : List (String × String)
  canvasWidth : ℚ
  canvasHeight : ℚ
  ops : List CanvasOp
deriving DecidableEq

/-- `svgToDataUrl` (src/sidepanel.tsx:105-195).  `parseSvg` stands for
`DOMParser.parseFromString`, returning the root element's attributes, or `none`
when the document contains a `parsererror`.  On success the code overwrites
`width`, `height` and `viewBox` on the root, serializes, encodes, and on image
load fills the canvas white and draws the image over the whole target box. -/
def svgToDataUrl (parseSvg : String → Option (List (String × String)))
    (s : String) (w h : ℚ) : Except String RasterRun :=
  match parseSvg (cleanSvgString s) with
  | none => .error "SVG 解析失败"
  | some attrs =>
    .ok { cleaned := cleanSvgString s
          rootAttrs :=
            setAttribute
              (setAttribute (setAttribute attrs "width" (qToStr w)) "height" (qToStr h))
              "viewBox" ("0 0 " ++ qToStr w ++ " " ++ qToStr h)
          canvasWidth := w
          canvasHeight := h
          ops := [.fillRect "white" 0 0 w h, .drawImage 0 0 w h] }

/-- The canvas trace of the isolated-context path. -/
structure OffscreenRun where
  canvasWidth : ℚ
  canvasHeight : ℚ
  ops : List CanvasOp
deriving DecidableEq

/-- `processImage` (src/contents/offscreen/index.ts:27-42): uniform scale
`min(width/img.width, height/img.height)`, centered placement, no background
fill. -/
def processImage (imgW imgH w h : ℚ) : OffscreenRun :=
  let scale := min (w / imgW) (h / imgH)
  let scaledWidth := imgW * scale
  let scaledHeight := imgH * scale
  let x := (w - scaledWidth) / 2
  let y := (h - scaledHeight) / 2
  ⟨w, h, [.drawImage x y scaledWidth scaledHeight]⟩

/-! ## Initial-scan retry (src/sidepanel.tsx:547-561) -/

/-- The retry loop of `retryOnError`, from iteration `i` with `remaining`
iterations left: run attempt `i`; on success stop; on failure rethrow when it
was the last iteration, otherwise sleep `1000 * (i + 1)` ms and continue.
Returns the outcome together with the list of sleeps performed. -/
def retryFrom (f : ℕ → Except String Unit) : ℕ → ℕ → Except String Unit × List ℕ
  | _, 0 => (.ok (), [])
  | i, r + 1 =>
    match f i with
    | .ok _ => (.ok (), [])
    | .error e =>
      if r = 0 then (.error e, [])
      else
        let rec1 := retryFrom f (i + 1) r
        (rec1.1, 1000 * (i + 1) :: rec1.2)

/-- `retryOnError` (src/sidepanel.tsx:547-557) with its default `maxRetries = 3`;
`f i` is the outcome of the `i`-th invocation of the wrapped operation. -/
def retryOnError (f : ℕ → Except String Unit) : Except String Unit × List ℕ :=
  retryFrom f 0 3

/-! ## Scanner traversal (src/content.ts:14-80, 129-146)

A DOM node carries a label standing for node identity, a tag name, an optional
shadow root (a list of top-level nodes of the shadow tree), an optional content
document (for `iframe` elements; `none` models a cross-origin frame whose
`contentDocument` is unavailable), and its light-DOM children.  A document or
shadow root is a list of top-level nodes. -/

inductive DNode : Type where
  | mk (label : ℕ) (tag : String) (shadow : Option (List DNode))
       (contentDoc : Option (List DNode)) (children : List DNode)

def DNode.labelOf : DNode → ℕ
  | .mk k _ _ _ _ => k

def DNode.tagOf : DNode → String
  | .mk _ t _ _ _ => t

def DNode.shadowOf : DNode → Option (List DNode)
  | .mk _ _ sh _ _ => sh

def DNode.contentDocOf : DNode → Option (List DNode)
  | .mk _ _ _ cd _ => cd

def DNode.childrenOf : DNode → List DNode
  | .mk _ _ _ _ ch => ch

mutual
/-- `querySelectorAll('*')` order: the node itself, then its light-DOM subtree,
in document order.  Shadow trees and iframe documents are not pierced. -/
def qsaAllNode : DNode → List DNode
  | .mk k t sh cd ch => .mk k t sh cd ch :: qsaAllList ch

def qsaAllList : List DNode → List DNode
  | [] => []
  | n :: rest => qsaAllNode n ++ qsaAllList rest
end

/-- `root.querySelectorAll('svg')`: the elements with tag `svg`, in document
order (`scanRegularDOM`, src/content.ts:28-35). -/
def svgEls (roots : List DNode) : List DNode :=
  (qsaAllList roots).filter (fun n => n.tagOf == "svg")

mutual
/-- `scanShadowDOM` (src/content.ts:38-48): if the element has a shadow root,
collect the shadow root's svg elements, then recurse into each element of the
shadow tree that itself hosts a shadow root, in document order. -/
def scanShadowNode : DNode → List DNode
  | .mk _ _ sh _ _ =>
    match sh with
    | some sr => svgEls sr ++ scanShadowHosts sr
    | none => []

/-- `querySelectorAll('*').forEach(el => scanShadowDOM(el))` over a tree list:
each element of the tree in document order contributes its `scanShadowDOM`
output. -/
def scanShadowHosts : List DNode → List DNode
  | [] => []
  | .mk k t sh cd ch :: rest =>
    (if sh.isSome then scanShadowNode (.mk k t sh cd ch) else []) ++
      scanShadowHosts ch ++ scanShadowHosts rest
end

/-- `scanIframes` (src/content.ts:51-69): for each `iframe` of the main
document with an accessible content document, collect the content document's
svg elements, then the shadow-scan of every element of the content document. -/
def scanIframes (doc : List DNode) : List DNode :=
  ((qsaAllList doc).filter (fun n => n.tagOf == "iframe")).flatMap (fun fr =>
    match fr.contentDocOf with
    | some d => svgEls d ++ scanShadowHosts d
    | none => [])

/-- `scanSVGElements` (src/content.ts:14-80), the uncached traversal: regular
DOM, then shadow DOM, then iframes. -/
def scanSVGElements (doc : List DNode) : List DNode :=
  svgEls doc ++ scanShadowHosts doc ++ scanIframes doc

/-- The `scanSVG` response (src/content.ts:129-146): each scanned element keyed
by its index. -/
def svgScanResponse (doc : List DNode) : List (ℕ × DNode) :=
  (scanSVGElements doc).enum

/-- The memoization state closed over by `scanSVGElements`
(src/content.ts:15-17). -/
structure ScanCache where
  cached : Option (List DNode)
  lastScanTime : ℕ

/-- One invocation of the cached scanner (src/content.ts:19-79) at wall-clock
time `now`: a cache hit returns the stored list unchanged and performs no
traversal; otherwise a fresh traversal runs and the cache and timestamp are
replaced.  The boolean reports whether a traversal was performed. -/
def scanWithCache (doc : List DNode) (st : ScanCache) (now : ℕ) :
    List DNode × ScanCache × Bool :=
  match st.cached with
  | some l =>
    if now - st.lastScanTime < 1000 then (l, st, false)
    else (scanSVGElements doc, ⟨some (scanSVGElements doc), now⟩, true)
  | none => (scanSVGElements doc, ⟨some (scanSVGElements doc), now⟩, true)

/-! ## Auxiliary predicates and spec-side enumerations -/

/-- Is the operation a background fill? -/
def isFillOp : CanvasOp → Bool
  | .fillRect _ _ _ _ _ => true
  | .drawImage _ _ _ _ => false

/-- No two adjacent whitespace characters. -/
def noDbl : List Char → Bool
  | a :: b :: rest => !(isWsChar a && isWsChar b) && noDbl (b :: rest)
  | _ => true

/-- Does `'>'`, a nonempty whitespace run, `'<'` occur anywhere? -/
def hasGapRun : List Char → Bool
  | [] => false
  | c :: rest =>
    (c == '>' && !(rest.takeWhile isWsChar).isEmpty &&
      ((rest.dropWhile isWsChar).head? == some '<')) || hasGapRun rest

mutual
/-- Spec-side: the elements with tag `t` of a light tree, in document order,
by direct structural recursion. -/
def tagElsNode (t : String) : DNode → List DNode
  | .mk k tg sh cd ch =>
    (if tg == t then [DNode.mk k tg sh cd ch] else []) ++ tagElsList t ch

def tagElsList (t : String) : List DNode → List DNode
  | [] => []
  | n :: rest => tagElsNode t n ++ tagElsList t rest
end

mutual
/-- Spec-side: the svg elements contributed by the shadow tree (and nested
shadow trees) of one element. -/
def shadowSvgsElem : DNode → List DNode
  | .mk _ _ none _ _ => []
  | .mk _ _ (some sr) _ _ => tagElsList "svg" sr ++ shadowSvgsList sr

/-- Spec-side: the shadow-tree svg elements of every element of a tree list,
hosts taken in document order. -/
def shadowSvgsList : List DNode → List DNode
  | [] => []
  | .mk k t sh cd ch :: rest =>
    shadowSvgsElem (.mk k t sh cd ch) ++ shadowSvgsList ch ++ shadowSvgsList rest
end

/-- Spec-side: the svg elements of the accessible content documents of the main
document's iframes, in document order of the iframes. -/
def iframeSvgsSpec (doc : List DNode) : List DNode :=
  (tagElsList "iframe" doc).flatMap (fun fr =>
    match fr.contentDocOf with
    | some d => tagElsList "svg" d ++ shadowSvgsList d
    | none => [])

/-- Spec-side: the scan output order stated by the amended claim — main-document
light-DOM svgs first, then shadow-tree svgs, then iframe svgs. -/
def scanOrderSpec (doc : List DNode) : List DNode :=
  tagElsList "svg" doc ++ shadowSvgsList doc ++ iframeSvgsSpec doc

mutual
/-- Document traversal order over the composed tree, as the original claim
reads it: each svg at its host position, shadow and iframe subtrees visited
where their host element sits. -/
def compNode : DNode → List DNode
  | .mk k t sh cd ch =>
    (if t == "svg" then [DNode.mk k t sh cd ch] else []) ++
    (match sh with | some sr => compList sr | none => []) ++
    (match cd with | some d => compList d | none => []) ++
    compList ch

def compList : List DNode → List DNode
  | [] => []
  | n :: rest => compNode n ++ compList rest
end

/-- A shadow-hosted svg (label 1) whose host precedes a light-DOM svg
(label 2): the order counterexample for the scan claim. -/
def demoShadowSvg : DNode := .mk 1 "svg" none none []

def demoHost : DNode := .mk 0 "div" (some [demoShadowSvg]) none []

def demoLightSvg : DNode := .mk 2 "svg" none none []

def demoDoc : List DNode := [demoHost, demoLightSvg]

/-! ## Theorems -/

/-- `find?` over the rewrite map of `setAttribute` finds the rewritten pair. -/
theorem find_map_set_self (n v : String) (a : List (String × String))
    (h : a.any (fun p => p.1 == n) = true) :
    (a.map (fun p => if p.1 == n then (n, v) else p)).find? (fun p => p.1 == n)
      = some (n, v) := by
  induction a with
  | nil => simp at h
  | cons p rest ih =>
    by_cases hp : (p.1 == n) = true
    · simp [List.find?, hp]
    · simp only [List.any_cons, hp, Bool.false_or] at h
      simp only [List.map_cons, hp, Bool.false_eq_true, not_false_iff, ite_false,
        if_neg]
      rw [List.find?_cons_of_neg _ (by simpa using hp)]
      exact ih h

/-- `find?` for a different name passes through the rewrite map of
`setAttribute`. -/
theorem find_map_set_other (n v m : String) (hnm : (n == m) = false)
    (a : List (String × String)) :
    (a.map (fun p => if p.1 == n then (n, v) else p)).find? (fun p => p.1 == m)
      = a.find? (fun p => p.1 == m) := by
  induction a with
  | nil => simp
  | cons p rest ih =>
    by_cases hp : (p.1 == n) = true
    · have hp1 : p.1 = n := by simpa using hp
      have hpm : (p.1 == m) = false := by
        rw [hp1]; exact hnm
      simp only [List.map_cons, hp, ite_true]
      rw [List.find?_cons_of_neg _ (by simpa using hnm),
        List.find?_cons_of_neg _ (by simpa using hpm)]
      exact ih
    · simp only [List.map_cons, hp, Bool.false_eq_true, not_false_iff, ite_false,
        if_neg]
      by_cases hpm : (p.1 == m) = true
      · simp [List.find?, hpm]
      · rw [List.find?_cons_of_neg _ (by simpa using hpm),
          List.find?_cons_of_neg _ (by simpa using hpm)]
        exact ih

/-- After `setAttribute attrs n v`, looking up `n` yields `v`. -/
theorem lookupAttr_setAttribute_self (a : List (String × String)) (n v : String) :
    lookupAttr (setAttribute a n v) n = some v := by
  unfold setAttribute lookupAttr
  split
  · rename_i hany
    rw [find_map_set_self n v a hany]
    rfl
  · rename_i hany
    rw [List.find?_append]
    have hnone : a.find? (fun p => p.1 == n) = none := by
      rw [List.find?_eq_none]
      intro p hp hcontra
      exact hany (List.any_of_mem hp hcontra)
    simp [hnone, List.find?]

/-- `setAttribute attrs n v` leaves lookups of other names unchanged. -/
theorem lookupAttr_setAttribute_other (a : List (String × String)) (n v m : String)
    (hnm : (n == m) = false) :
    lookupAttr (setAttribute a n v) m = lookupAttr a m := by
  unfold setAttribute lookupAttr
  split
  · rw [find_map_set_other n v m hnm a]
  · rw [List.find?_append]
    simp [List.find?, hnm]

/-- C10: for every markup input and target `W`/`H`, when the interactive
rasterization path succeeds its post-parse attribute rewriting leaves the root
element with `width = W`, `height = H` and `viewBox = "0 0 W H"`, whatever
attributes (in particular whatever original `viewBox` or declared size) the
parsed root carried. -/
theorem C10_root_attrs_overwritten
    (parseSvg : String → Option (List (String × String))) (s : String) (w h : ℚ)
    (run : RasterRun) (hrun : svgToDataUrl parseSvg s w h = .ok run) :
    lookupAttr run.rootAttrs "width" = some (qToStr w) ∧
    lookupAttr run.rootAttrs "height" = some (qToStr h) ∧
    lookupAttr run.rootAttrs "viewBox" =
      some ("0 0 " ++ qToStr w ++ " " ++ qToStr h) := by
  unfold svgToDataUrl at hrun
  cases hp : parseSvg (cleanSvgString s) with
  | none => rw [hp] at hrun; exact absurd hrun (by simp)
  | some attrs =>
    rw [hp] at hrun
    simp only [Except.ok.injEq] at hrun
    subst hrun
    refine ⟨?_, ?_, ?_⟩
    · rw [lookupAttr_setAttribute_other _ _ _ _ (by decide),
        lookupAttr_setAttribute_other _ _ _ _ (by decide)]
      exact lookupAttr_setAttribute_self _ _ _
    · rw [lookupAttr_setAttribute_other _ _ _ _ (by decide)]
      exact lookupAttr_setAttribute_self _ _ _
    · exact lookupAttr_setAttribute_self _ _ _

/-- C10 witness: a parsed root that carries an original `viewBox` and `width`
ends up with the requested `3`/`4`/`"0 0 3 4"`. -/
theorem C10_root_attrs_overwritten_witness :
    ∃ run, svgToDataUrl (fun _ => some [("viewBox", "0 0 7 9"), ("width", "7")])
        "<svg viewBox=\"0 0 7 9\" width=\"7\"></svg>" 3 4 = .ok run ∧
      lookupAttr run.rootAttrs "width" = some "3" ∧
      lookupAttr run.rootAttrs "height" = some "4" ∧
      lookupAttr run.rootAttrs "viewBox" = some "0 0 3 4" := by
  obtain ⟨run, hrun⟩ :
      ∃ run, svgToDataUrl (fun _ => some [("viewBox", "0 0 7 9"), ("width", "7")])
        "<svg viewBox=\"0 0 7 9\" width=\"7\"></svg>" 3 4 = .ok run := ⟨_, rfl⟩
  have h := C10_root_attrs_overwritten _ _ _ _ _ hrun
  refine ⟨run, hrun, ?_, ?_, ?_⟩
  · rw [h.1]; rfl
  · rw [h.2.1]; rfl
  · rw [h.2.2]; rfl

/-- C6: whenever the interactive single-size rasterization succeeds, the canvas
is the full `W×H` target, and the operation sequence is exactly an opaque white
fill of the whole canvas followed by a draw of the image stretched over the
whole target box. -/
theorem C6_white_fill_then_stretch
    (parseSvg : String → Option (List (String × String))) (s : String) (w h : ℚ)
    (run : RasterRun) (hrun : svgToDataUrl parseSvg s w h = .ok run) :
    run.canvasWidth = w ∧ run.canvasHeight = h ∧
    run.ops = [CanvasOp.fillRect "white" 0 0 w h, CanvasOp.drawImage 0 0 w h] := by
  unfold svgToDataUrl at hrun
  cases hp : parseSvg (cleanSvgString s) with
  | none => rw [hp] at hrun; exact absurd hrun (by simp)
  | some attrs =>
    rw [hp] at hrun
    simp only [Except.ok.injEq] at hrun
    subst hrun
    exact ⟨rfl, rfl, rfl⟩

/-- C6 witness at a concrete parse result and target `5×7`. -/
theorem C6_white_fill_then_stretch_witness :
    ∃ run, svgToDataUrl (fun _ => some []) "<svg></svg>" 5 7 = .ok run ∧
      run.ops = [CanvasOp.fillRect "white" 0 0 5 7, CanvasOp.drawImage 0 0 5 7] := by
  obtain ⟨run, hrun⟩ :
      ∃ run, svgToDataUrl (fun _ => some []) "<svg></svg>" 5 7 = .ok run := ⟨_, rfl⟩
  exact ⟨run, hrun, (C6_white_fill_then_stretch _ _ _ _ _ hrun).2.2⟩

/-- C3: the isolated-context rasterization draws exactly one image, scaled by
the uniform factor `min(W/w, H/h)`, centered (equal margins on each axis), with
the source aspect ratio preserved (`sw·h = sh·w`), and performs no background
fill. -/
theorem C3_uniform_scale_centered (imgW imgH w h : ℚ)
    (hw : 0 < imgW) (hh : 0 < imgH) :
    (processImage imgW imgH w h).canvasWidth = w ∧
    (processImage imgW imgH w h).canvasHeight = h ∧
    (processImage imgW imgH w h).ops =
      [CanvasOp.drawImage
        ((w - imgW * min (w / imgW) (h / imgH)) / 2)
        ((h - imgH * min (w / imgW) (h / imgH)) / 2)
        (imgW * min (w / imgW) (h / imgH))
        (imgH * min (w / imgW) (h / imgH))] ∧
    (imgW * min (w / imgW) (h / imgH)) * imgH
      = (imgH * min (w / imgW) (h / imgH)) * imgW ∧
    w - (((w - imgW * min (w / imgW) (h / imgH)) / 2)
          + imgW * min (w / imgW) (h / imgH))
      = (w - imgW * min (w / imgW) (h / imgH)) / 2 ∧
    h - (((h - imgH * min (w / imgW) (h / imgH)) / 2)
          + imgH * min (w / imgW) (h / imgH))
      = (h - imgH * min (w / imgW) (h / imgH)) / 2 ∧
    (processImage imgW imgH w h).ops.filter isFillOp = [] := by
  refine ⟨rfl, rfl, rfl, by ring, by ring, by ring, ?_⟩
  simp [processImage, isFillOp]

/-- C3 witness: a `2×1` image in a `4×4` box is drawn at `(0, 1)` with size
`4×2`. -/
theorem C3_uniform_scale_centered_witness :
    (0 : ℚ) < 2 ∧ (0 : ℚ) < 1 ∧
    (processImage 2 1 4 4).ops = [CanvasOp.drawImage 0 1 4 2] := by
  refine ⟨by norm_num, by norm_num, ?_⟩
  have h := (C3_uniform_scale_centered 2 1 4 4 (by norm_num) (by norm_num)).2.2.1
  rw [h]
  norm_num [min_def]

/-- C4: one `downloadAllSizes` run for an item rasterizes its markup exactly
once per non-negative preset (16, 32, 48, 128, and the zero preset at the
item's own resolved dimensions), writes exactly those five PNG entries under
`svg_<id>_<w>x<h>.png`, names the archive `svg_<id>_all_sizes.zip`, and issues
exactly one download. -/
theorem C4_all_sizes_archive (item : SVGItem) :
    downloadAllSizes item =
      { rasterCalls := [(item.outerHTML, 16, 16), (item.outerHTML, 32, 32),
          (item.outerHTML, 48, 48), (item.outerHTML, 128, 128),
          (item.outerHTML, item.dimWidth, item.dimHeight)]
        zipEntries := [pngName item.id 16 16, pngName item.id 32 32,
          pngName item.id 48 48, pngName item.id 128 128,
          pngName item.id item.dimWidth item.dimHeight]
        zipName := "svg_" ++ toString item.id ++ "_all_sizes.zip"
        downloadCount := 1 } := by
  show downloadAllSizes item = _
  unfold downloadAllSizes PRESET_SIZES
  norm_num [List.filter, jsOr]

/-- C5: with the custom-size option selected, `handleDownload` rejects with the
per-item error (making no rasterization call) whenever the stored custom size
is absent or has a non-positive width or height, and any successful run implies
both dimensions were positive and exactly one rasterization at them. -/
theorem C5_custom_size_validation (svg : SVGItem) (cs : CustomSize) :
    (handleDownload svg ⟨-2, -2, "自定义尺寸"⟩ none
      = .error "请输入有效的自定义尺寸")
  ∧ (cs.width ≤ 0 ∨ cs.height ≤ 0 →
      handleDownload svg ⟨-2, -2, "自定义尺寸"⟩ (some cs)
        = .error "请输入有效的自定义尺寸")
  ∧ (∀ run, handleDownload svg ⟨-2, -2, "自定义尺寸"⟩ (some cs) = .ok run →
      0 < cs.width ∧ 0 < cs.height ∧
      run.rasterCalls = [(svg.outerHTML, cs.width, cs.height)] ∧
      run.downloads = [pngName svg.id cs.width cs.height]) := by
  have h1 : ¬ ((⟨-2, -2, "自定义尺寸"⟩ : PresetSize).width = -1) := by decide
  have h2 : ((⟨-2, -2, "自定义尺寸"⟩ : PresetSize).width = -2) := by decide
  refine ⟨?_, ?_, ?_⟩
  · unfold handleDownload
    rw [if_neg h1, if_pos h2]
  · intro h
    unfold handleDownload
    rw [if_neg h1, if_pos h2]
    show (if cs.width ≤ 0 ∨ cs.height ≤ 0 then _ else _) = _
    rw [if_pos h]
  · intro run hok
    unfold handleDownload at hok
    rw [if_neg h1, if_pos h2] at hok
    by_cases h : cs.width ≤ 0 ∨ cs.height ≤ 0
    · rw [show (match some cs with
          | none => (Except.error "请输入有效的自定义尺寸" : Except String DownloadRun)
          | some cs =>
            if cs.width ≤ 0 ∨ cs.height ≤ 0 then .error "请输入有效的自定义尺寸"
            else .ok ⟨[(svg.outerHTML, cs.width, cs.height)],
              [pngName svg.id cs.width cs.height]⟩)
          = (if cs.width ≤ 0 ∨ cs.height ≤ 0 then
              (Except.error "请输入有效的自定义尺寸" : Except String DownloadRun)
            else .ok ⟨[(svg.outerHTML, cs.width, cs.height)],
              [pngName svg.id cs.width cs.height]⟩) from rfl, if_pos h] at hok
      cases hok
    · rw [show (match some cs with
          | none => (Except.error "请输入有效的自定义尺寸" : Except String DownloadRun)
          | some cs =>
            if cs.width ≤ 0 ∨ cs.height ≤ 0 then .error "请输入有效的自定义尺寸"
            else .ok ⟨[(svg.outerHTML, cs.width, cs.height)],
              [pngName svg.id cs.width cs.height]⟩)
          = (if cs.width ≤ 0 ∨ cs.height ≤ 0 then
              (Except.error "请输入有效的自定义尺寸" : Except String DownloadRun)
            else .ok ⟨[(svg.outerHTML, cs.width, cs.height)],
              [pngName svg.id cs.width cs.height]⟩) from rfl, if_neg h] at hok
      push_neg at h
      simp only [Except.ok.injEq] at hok
      subst hok
      exact ⟨h.1, h.2, rfl, rfl⟩

/-- C5 witness: width 0 is rejected; width 3 × height 4 rasterizes once at
`3×4`. -/
theorem C5_custom_size_validation_witness :
    (handleDownload ⟨0, "m", 10, 10⟩ ⟨-2, -2, "自定义尺寸"⟩ (some ⟨0, 5, true⟩)
      = .error "请输入有效的自定义尺寸")
  ∧ (0:ℚ) < 3 ∧ (0:ℚ) < 4 ∧
    (∃ run, handleDownload ⟨0, "m", 10, 10⟩ ⟨-2, -2, "自定义尺寸"⟩
        (some ⟨3, 4, true⟩) = .ok run ∧ run.rasterCalls = [("m", 3, 4)]) := by
  refine ⟨?_, by norm_num, by norm_num, ?_⟩
  · exact (C5_custom_size_validation ⟨0, "m", 10, 10⟩ ⟨0, 5, true⟩).2.1
      (Or.inl (by norm_num))
  · obtain ⟨run, hrun⟩ :
        ∃ run, handleDownload ⟨0, "m", 10, 10⟩ ⟨-2, -2, "自定义尺寸"⟩
          (some ⟨3, 4, true⟩) = .ok run := ⟨_, rfl⟩
    exact ⟨run, hrun,
      ((C5_custom_size_validation ⟨0, "m", 10, 10⟩ ⟨3, 4, true⟩).2.2 run hrun).2.2.1⟩

/-- C8: with a cached completed scan, a second invocation strictly less than
1000 ms later returns the cached list with the state untouched and no traversal
performed; at 1000 ms or later a fresh traversal runs and both cache and
timestamp are replaced. -/
theorem C8_scan_cache (doc : List DNode) (st : ScanCache) (now : ℕ)
    (l : List DNode) (hc : st.cached = some l) :
    (now - st.lastScanTime < 1000 → scanWithCache doc st now = (l, st, false))
  ∧ (1000 ≤ now - st.lastScanTime →
      scanWithCache doc st now
        = (scanSVGElements doc, ⟨some (scanSVGElements doc), now⟩, true)) := by
  obtain ⟨cached, t⟩ := st
  change cached = some l at hc
  subst hc
  constructor
  · intro h
    show (if now - t < 1000 then (l, (⟨some l, t⟩ : ScanCache), false)
          else (scanSVGElements doc, ⟨some (scanSVGElements doc), now⟩, true))
        = (l, (⟨some l, t⟩ : ScanCache), false)
    rw [if_pos h]
  · intro h
    show (if now - t < 1000 then (l, (⟨some l, t⟩ : ScanCache), false)
          else (scanSVGElements doc, ⟨some (scanSVGElements doc), now⟩, true))
        = (scanSVGElements doc, ⟨some (scanSVGElements doc), now⟩, true)
    change 1000 ≤ now - t at h
    rw [if_neg (by omega)]

/-- C8 witness: a hit at `now = 500` after a scan at time `0`, and a miss at
`now = 1500`. -/
theorem C8_scan_cache_witness :
    scanWithCache [] ⟨some [demoLightSvg], 0⟩ 500 = ([demoLightSvg], ⟨some [demoLightSvg], 0⟩, false)
  ∧ scanWithCache [] ⟨some [demoLightSvg], 0⟩ 1500 = ([], ⟨some [], 1500⟩, true) := by
  constructor
  · exact (C8_scan_cache [] ⟨some [demoLightSvg], 0⟩ 500 [demoLightSvg] rfl).1
      (by norm_num)
  · have h := (C8_scan_cache [] ⟨some [demoLightSvg], 0⟩ 1500 [demoLightSvg] rfl).2
      (by norm_num)
    rw [h]
    rfl

/-- C9: the initial-scan wrapper attempts the operation up to three times with
sleeps of 1000 ms then 2000 ms between failures, stops at the first success,
and propagates the third attempt's failure. -/
theorem C9_initial_scan_retry (f : ℕ → Except String Unit) :
    (f 0 = .ok () → retryOnError f = (.ok (), []))
  ∧ (∀ e0, f 0 = .error e0 → f 1 = .ok () →
      retryOnError f = (.ok (), [1000]))
  ∧ (∀ e0 e1, f 0 = .error e0 → f 1 = .error e1 → f 2 = .ok () →
      retryOnError f = (.ok (), [1000, 2000]))
  ∧ (∀ e0 e1 e2, f 0 = .error e0 → f 1 = .error e1 → f 2 = .error e2 →
      retryOnError f = (.error e2, [1000, 2000])) := by
  refine ⟨?_, ?_, ?_, ?_⟩
  · intro h0
    unfold retryOnError retryFrom
    rw [h0]
  · intro e0 h0 h1
    unfold retryOnError retryFrom retryFrom
    rw [h0, h1]
    norm_num
  · intro e0 e1 h0 h1 h2
    unfold retryOnError retryFrom retryFrom retryFrom
    rw [h0, h1, h2]
    norm_num
  · intro e0 e1 e2 h0 h1 h2
    unfold retryOnError retryFrom retryFrom retryFrom
    rw [h0, h1, h2]
    norm_num

/-- C9 witness: an operation failing once then succeeding is retried after a
single 1000 ms sleep. -/
theorem C9_initial_scan_retry_witness :
    retryOnError (fun i => if i = 0 then .error "scan failed" else .ok ())
      = (.ok (), [1000]) := by
  exact (C9_initial_scan_retry
      (fun i => if i = 0 then .error "scan failed" else .ok ())).2.1
    "scan failed" rfl rfl

/-- A successful `parseFloat` of a digits-and-dots string is nonnegative. -/
theorem parseFloatQ_nonneg (t : List Char) (q : ℚ) (h : parseFloatQ t = some q) :
    0 ≤ q := by
  unfold parseFloatQ at h
  split at h
  · exact absurd h (by simp)
  · simp only [Option.some.injEq] at h
    subst h
    positivity

/-- A truthy `parseSize` result is strictly positive. -/
theorem parseSizePos_pos (x : Option String) (q : ℚ)
    (h : parseSizePos x = some q) : 0 < q := by
  cases x with
  | none => exact absurd h (by simp [parseSizePos])
  | some str =>
    simp only [parseSizePos] at h
    by_cases hemp : (str.data.takeWhile (fun c => c.isDigit || c == '.')).isEmpty
    · rw [if_pos hemp] at h
      cases h
    · rw [if_neg hemp] at h
      cases hfq : parseFloatQ (str.data.takeWhile (fun c => c.isDigit || c == '.')) with
      | none => rw [hfq] at h; cases h
      | some q0 =>
        rw [hfq] at h
        rw [show (match some q0 with
              | none => (none : Option ℚ)
              | some q => if q = 0 then none else some q)
            = (if q0 = 0 then none else some q0) from rfl] at h
        by_cases h0 : q0 = 0
        · rw [if_pos h0] at h; cases h
        · rw [if_neg h0] at h
          injection h with h2
          subst h2
          exact lt_of_le_of_ne (parseFloatQ_nonneg _ _ hfq) (Ne.symm h0)

/-- A truthy `parseSize` result comes from a truthy (non-null, nonempty)
string. -/
theorem truthy_of_parseSizePos (x : Option String) (q : ℚ)
    (h : parseSizePos x = some q) : truthyAttr x = true := by
  cases x with
  | none => exact absurd h (by simp [parseSizePos])
  | some str =>
    cases hd : str.data with
    | cons c rest => simp [truthyAttr, hd]
    | nil =>
      simp only [parseSizePos, hd] at h
      exact absurd h (by simp [List.takeWhile])

/-- Each axis of the final fallback chain is strictly positive. -/
theorem finishAxis_pos (x : Option String) (c : ℕ) : 0 < finishAxis x c := by
  cases hp : parseSizePos x with
  | some q =>
    have := parseSizePos_pos x q hp
    simpa [finishAxis, hp] using this
  | none =>
    simp only [finishAxis, hp]
    by_cases hc : c ≠ 0
    · rw [if_pos hc]
      exact_mod_cast Nat.pos_of_ne_zero hc
    · rw [if_neg hc]
      norm_num

/-- C1 counterexample: an element with no usable width/height attribute,
`viewBox`, style value or bounding box but a `50×60` client box resolves to
`(50, 60)`, not to the fixed default `(100, 100)` the claim states. -/
theorem C1_fixed_default_counterexample :
    getSVGDimensions ⟨none, none, none, "auto", "auto", none, 50, 60⟩ = (50, 60)
  ∧ getSVGDimensions ⟨none, none, none, "auto", "auto", none, 50, 60⟩
      ≠ (100, 100) := by
  constructor <;> decide

/-- C1 (amended): dimension resolution follows the chain — truthy parseable
width/height attributes win; otherwise a present `viewBox` with four
space-separated components supplies components 3 and 4; otherwise the computed
style values win when they parse, regardless of any bounding box; when a style
string is falsy the stringified `getBBox` values supply the dimensions; and
when every source fails to parse, each axis falls back to the element's client
size when that is nonzero and to the fixed default `100` otherwise.  The
resolved pair is always strictly positive on both axes. -/
theorem C1_dimension_resolution (e : SVGElementState) :
    (0 < (getSVGDimensions e).1 ∧ 0 < (getSVGDimensions e).2)
  ∧ (∀ qw qh, parseSizePos e.widthAttr = some qw →
      parseSizePos e.heightAttr = some qh →
      getSVGDimensions e = (qw, qh))
  ∧ (∀ vb a b c d qc qd, truthyAttr e.widthAttr = false →
      e.viewBoxAttr = some vb → truthyAttr (some vb) = true →
      vb.splitOn " " = [a, b, c, d] →
      parseSizePos (some c) = some qc → parseSizePos (some d) = some qd →
      getSVGDimensions e = (qc, qd))
  ∧ (∀ qw qh, truthyAttr e.widthAttr = false →
      truthyAttr e.viewBoxAttr = false →
      parseSizePos (some e.styleWidth) = some qw →
      parseSizePos (some e.styleHeight) = some qh →
      getSVGDimensions e = (qw, qh))
  ∧ (∀ bw bh qw qh, truthyAttr e.widthAttr = false →
      truthyAttr e.viewBoxAttr = false →
      e.styleWidth = "" →
      e.bbox = some (bw, bh) →
      parseSizePos (some bw) = some qw →
      parseSizePos (some bh) = some qh →
      getSVGDimensions e = (qw, qh))
  ∧ ((!truthyAttr e.widthAttr || !truthyAttr e.heightAttr) = true →
      truthyAttr e.viewBoxAttr = false →
      parseSizePos (some e.styleWidth) = none →
      parseSizePos (some e.styleHeight) = none →
      e.bbox = none →
      getSVGDimensions e =
        ((if e.clientWidth ≠ 0 then (e.clientWidth : ℚ) else 100),
         (if e.clientHeight ≠ 0 then (e.clientHeight : ℚ) else 100))) := by
  refine ⟨⟨finishAxis_pos _ _, finishAxis_pos _ _⟩, ?_, ?_, ?_, ?_, ?_⟩
  · intro qw qh hqw hqh
    have htw := truthy_of_parseSizePos _ _ hqw
    have hth := truthy_of_parseSizePos _ _ hqh
    simp [getSVGDimensions, resolvedWH, finishAxis, htw, hth, hqw, hqh]
  · intro vb a b c d qc qd hwf hvb hvt hsplit hqc hqd
    have htc := truthy_of_parseSizePos _ _ hqc
    have htd := truthy_of_parseSizePos _ _ hqd
    simp [getSVGDimensions, resolvedWH, finishAxis, hwf, hvb, hvt, hsplit,
      htc, htd, hqc, hqd]
  · intro qw qh hwf hvf hsw hsh
    have htw := truthy_of_parseSizePos _ _ hsw
    have hth := truthy_of_parseSizePos _ _ hsh
    simp [getSVGDimensions, resolvedWH, finishAxis, hwf, hvf, htw, hth, hsw, hsh]
  · intro bw bh qw qh hwf hvf hse hbb hpw hph
    have hst : truthyAttr (some e.styleWidth) = false := by
      rw [hse]
      decide
    simp [getSVGDimensions, resolvedWH, finishAxis, hwf, hvf, hst, hbb, hpw, hph]
  · intro hcond hvf hsw hsh hbb
    simp [getSVGDimensions, resolvedWH, finishAxis, hvf, hcond, hbb, hsw, hsh]

/-- C1 witness: truthy parseable attributes win (`37×21`); computed style
`8px×9px` beats a present `1×2` bounding box; with empty style strings the
`5×6` bounding box supplies the dimensions; and with nothing usable and a zero
client width but client height `7`, the axes resolve to `100` and `7`. -/
theorem C1_dimension_resolution_witness :
    parseSizePos (some "37") = some 37 ∧ parseSizePos (some "21") = some 21 ∧
    getSVGDimensions ⟨some "37", some "21", none, "", "", none, 0, 0⟩ = (37, 21)
  ∧ getSVGDimensions ⟨none, none, none, "8px", "9px", some ("1", "2"), 0, 0⟩ = (8, 9)
  ∧ getSVGDimensions ⟨none, none, none, "", "", some ("5", "6"), 0, 0⟩ = (5, 6)
  ∧ getSVGDimensions ⟨none, none, none, "auto", "auto", none, 0, 7⟩ = (100, 7) := by
  have ht37 : "37".data.takeWhile (fun c => c.isDigit || c == '.') = ['3', '7'] := by
    decide
  have ht21 : "21".data.takeWhile (fun c => c.isDigit || c == '.') = ['2', '1'] := by
    decide
  have hip37 : ['3', '7'].takeWhile Char.isDigit = ['3', '7'] := by decide
  have hip21 : ['2', '1'].takeWhile Char.isDigit = ['2', '1'] := by decide
  have hff37 : floatFracDigits ['3', '7'] = [] := by decide
  have hff21 : floatFracDigits ['2', '1'] = [] := by decide
  have hdv37 : digitsVal ['3', '7'] = 37 := by decide
  have hdv21 : digitsVal ['2', '1'] = 21 := by decide
  have h37 : parseSizePos (some "37") = some 37 := by
    simp only [parseSizePos, ht37, parseFloatQ, hip37, hff37, hdv37]
    norm_num [show digitsVal [] = 0 from rfl]
  have h21 : parseSizePos (some "21") = some 21 := by
    simp only [parseSizePos, ht21, parseFloatQ, hip21, hff21, hdv21]
    norm_num [show digitsVal [] = 0 from rfl]
  have hpx : ∀ (s : String) (c : Char) (n : ℕ),
      s.data.takeWhile (fun x => x.isDigit || x == '.') = [c] →
      [c].takeWhile Char.isDigit = [c] →
      floatFracDigits [c] = [] → digitsVal [c] = n → n ≠ 0 →
      parseSizePos (some s) = some n := by
    intro s c n ht hip hff hdv hn
    simp only [parseSizePos, ht, parseFloatQ, hip, hff, hdv]
    norm_num [show digitsVal [] = 0 from rfl, hn]
  have h8 : parseSizePos (some "8px") = some 8 :=
    hpx "8px" '8' 8 (by decide) (by decide) (by decide) (by decide) (by decide)
  have h9 : parseSizePos (some "9px") = some 9 :=
    hpx "9px" '9' 9 (by decide) (by decide) (by decide) (by decide) (by decide)
  have h5 : parseSizePos (some "5") = some 5 :=
    hpx "5" '5' 5 (by decide) (by decide) (by decide) (by decide) (by decide)
  have h6 : parseSizePos (some "6") = some 6 :=
    hpx "6" '6' 6 (by decide) (by decide) (by decide) (by decide) (by decide)
  refine ⟨h37, h21, ?_, ?_, ?_, ?_⟩
  · exact (C1_dimension_resolution
      ⟨some "37", some "21", none, "", "", none, 0, 0⟩).2.1 37 21 h37 h21
  · exact (C1_dimension_resolution
      ⟨none, none, none, "8px", "9px", some ("1", "2"), 0, 0⟩).2.2.2.1
      8 9 rfl rfl h8 h9
  · exact (C1_dimension_resolution
      ⟨none, none, none, "", "", some ("5", "6"), 0, 0⟩).2.2.2.2.1
      "5" "6" 5 6 rfl rfl rfl rfl h5 h6
  · have h :=
      (C1_dimension_resolution
        ⟨none, none, none, "auto", "auto", none, 0, 7⟩).2.2.2.2.2
        (by decide) (by decide) (by decide) (by decide) rfl
    rw [h]
    norm_num

mutual
/-- Selector matching commutes with the preorder flattening: collecting
`t`-tagged elements directly equals filtering `querySelectorAll('*')`, for one
subtree. -/
theorem tagEls_node_eq (t : String) : ∀ n : DNode,
    tagElsNode t n = (qsaAllNode n).filter (fun m => m.tagOf == t)
  | .mk k tg sh cd ch => by
    simp only [tagElsNode, qsaAllNode, List.filter_cons]
    rw [tagEls_list_eq t ch,
      show ((DNode.mk k tg sh cd ch).tagOf == t) = (tg == t) from rfl]
    by_cases h : (tg == t) = true
    · simp [h]
    · simp [h]

/-- Selector matching commutes with the preorder flattening, for a tree list. -/
theorem tagEls_list_eq (t : String) : ∀ l : List DNode,
    tagElsList t l = (qsaAllList l).filter (fun m => m.tagOf == t)
  | [] => by simp [tagElsList, qsaAllList]
  | n :: rest => by
    simp only [tagElsList, qsaAllList, List.filter_append]
    rw [tagEls_node_eq t n, tagEls_list_eq t rest]
end

mutual
/-- The source's guarded `scanShadowDOM` call on one element equals the
spec-side shadow-svg enumeration of that element. -/
theorem scanShadowElem_eq : ∀ (k : ℕ) (tg : String) (sh : Option (List DNode))
    (cd : Option (List DNode)) (ch : List DNode),
    (if sh.isSome then scanShadowNode (.mk k tg sh cd ch) else [])
      = shadowSvgsElem (.mk k tg sh cd ch)
  | k, tg, none, cd, ch => by
    simp [shadowSvgsElem]
  | k, tg, some sr, cd, ch => by
    simp only [Option.isSome_some, if_true, if_pos,
      scanShadowNode, shadowSvgsElem, svgEls]
    rw [scanShadowHosts_eq sr, tagEls_list_eq "svg" sr]

/-- The source's shadow scan over a tree list equals the spec-side shadow-svg
enumeration. -/
theorem scanShadowHosts_eq : ∀ l : List DNode,
    scanShadowHosts l = shadowSvgsList l
  | [] => rfl
  | .mk k tg sh cd ch :: rest => by
    simp only [scanShadowHosts, shadowSvgsList]
    rw [scanShadowElem_eq k tg sh cd ch, scanShadowHosts_eq ch,
      scanShadowHosts_eq rest]
end

/-- The source's iframe scan equals the spec-side iframe-svg enumeration. -/
theorem scanIframes_eq (doc : List DNode) : scanIframes doc = iframeSvgsSpec doc := by
  unfold scanIframes iframeSvgsSpec
  rw [← tagEls_list_eq "iframe" doc]
  congr 1
  funext fr
  cases hcd : fr.contentDocOf with
  | none => rfl
  | some d =>
    simp only [svgEls]
    rw [scanShadowHosts_eq d, tagEls_list_eq "svg" d]

/-- The scan output is exactly the spec-side grouped enumeration: light-DOM
svgs, then shadow-tree svgs, then iframe svgs. -/
theorem scanSVGElements_eq_spec (doc : List DNode) :
    scanSVGElements doc = scanOrderSpec doc := by
  unfold scanSVGElements scanOrderSpec svgEls
  rw [← tagEls_list_eq "svg" doc, scanShadowHosts_eq doc, scanIframes_eq doc]

/-- C7 counterexample: in a document whose first element hosts a shadow tree
containing an svg (label 1) and whose second element is a light-DOM svg
(label 2), document traversal order (shadow content at its host position)
yields `[1, 2]`, but the scan returns `[2, 1]` — the shadow-hosted record comes
last, so the response is not in document traversal order and the shadow svg's
identifier differs from its traversal position. -/
theorem C7_traversal_order_counterexample :
    (scanSVGElements demoDoc).map DNode.labelOf = [2, 1]
  ∧ (compList demoDoc).map DNode.labelOf = [1, 2]
  ∧ scanSVGElements demoDoc ≠ compList demoDoc := by
  have h1 : (scanSVGElements demoDoc).map DNode.labelOf = [2, 1] := by rfl
  have h2 : (compList demoDoc).map DNode.labelOf = [1, 2] := by rfl
  refine ⟨h1, h2, ?_⟩
  intro hEq
  rw [hEq, h2] at h1
  exact absurd h1 (by simp)

/-- C7 (amended): the scan response enumerates, in order, the light-DOM svgs of
the main document in document order, then the shadow-tree svgs (hosts in
document order, nested shadow roots depth-first), then the svgs of the
top-level accessible iframes; each element discovered by that enumeration
contributes exactly one record, at its enumeration position, and each record's
identifier equals its position in the response. -/
theorem C7_scan_enumeration (doc : List DNode) :
    scanSVGElements doc
      = tagElsList "svg" doc ++ shadowSvgsList doc ++ iframeSvgsSpec doc
  ∧ (svgScanResponse doc).map Prod.fst = List.range (scanSVGElements doc).length
  ∧ (svgScanResponse doc).map Prod.snd = scanSVGElements doc := by
  refine ⟨scanSVGElements_eq_spec doc, ?_, ?_⟩
  · exact List.enum_map_fst _
  · exact List.enum_map_snd _

/-- The head surviving `dropWhile` fails the predicate. -/
theorem dropWhile_head_not (p : Char → Bool) : ∀ (l t : List Char) (a : Char),
    l.dropWhile p = a :: t → p a = false
  | [], t, a => by simp [List.dropWhile]
  | c :: rest, t, a => by
    intro h
    by_cases hc : p c = true
    · rw [List.dropWhile_cons_of_pos hc] at h
      exact dropWhile_head_not p rest t a h
    · rw [List.dropWhile_cons_of_neg hc] at h
      cases h
      simpa using hc

/-- Whitespace characters surviving `collapseWs` are plain spaces. -/
theorem mem_collapseWs_ws (l : List Char) :
    ∀ c ∈ collapseWs l, isWsChar c = true → c = ' ' := by
  induction l using collapseWs.induct with
  | case1 => simp [collapseWs]
  | case2 c l hws ih =>
    rw [collapseWs, if_pos hws]
    intro x hx hxws
    rcases List.mem_cons.mp hx with h | h
    · exact h
    · exact ih x h hxws
  | case3 c l hws ih =>
    rw [collapseWs, if_neg hws]
    intro x hx hxws
    rcases List.mem_cons.mp hx with h | h
    · subst h; exact absurd hxws (by simp [hws])
    · exact ih x h hxws

/-- `collapseWs` keeps the head position: a cons input yields a cons output
whose head is the (possibly space-normalized) input head. -/
theorem collapse_cons_head (c : Char) (l : List Char) :
    ∃ m, collapseWs (c :: l) = (if isWsChar c then ' ' else c) :: m := by
  by_cases h : isWsChar c
  · exact ⟨_, by rw [collapseWs, if_pos h, if_pos h]⟩
  · exact ⟨_, by rw [collapseWs, if_neg h, if_neg h]⟩

/-- `noDbl` restricted to the tail. -/
theorem noDbl_tail (a : Char) (l : List Char) (h : noDbl (a :: l) = true) :
    noDbl l = true := by
  cases l with
  | nil => rfl
  | cons b rest =>
    simp only [noDbl, Bool.and_eq_true] at h
    exact h.2

/-- A non-whitespace head never forms a whitespace pair. -/
theorem noDbl_cons_of_headNotWs (a : Char) (l : List Char)
    (ha : isWsChar a = false) (hl : noDbl l = true) : noDbl (a :: l) = true := by
  cases l with
  | nil => rfl
  | cons b rest =>
    simp only [noDbl, Bool.and_eq_true]
    exact ⟨by simp [ha], hl⟩

/-- `noDbl` of a cons in terms of the tail's head. -/
theorem noDbl_cons_of_head (a b : Char) (l : List Char)
    (hab : (isWsChar a && isWsChar b) = false) (hl : noDbl (b :: l) = true) :
    noDbl (a :: b :: l) = true := by
  simp only [noDbl, Bool.and_eq_true]
  exact ⟨by simp [hab], hl⟩

/-- `noDbl` survives `dropWhile`. -/
theorem noDbl_dropWhile (p : Char → Bool) : ∀ l : List Char,
    noDbl l = true → noDbl (l.dropWhile p) = true
  | [], h => h
  | c :: rest, h => by
    by_cases hc : p c = true
    · rw [List.dropWhile_cons_of_pos hc]
      exact noDbl_dropWhile p rest (noDbl_tail c rest h)
    · rw [List.dropWhile_cons_of_neg hc]
      exact h

/-- `noDbl` survives `drop`. -/
theorem noDbl_drop : ∀ (n : ℕ) (l : List Char),
    noDbl l = true → noDbl (l.drop n) = true
  | 0, l, h => h
  | _ + 1, [], h => h
  | n + 1, c :: rest, h => by
    rw [List.drop_succ_cons]
    exact noDbl_drop n rest (noDbl_tail c rest h)

/-- Prepending an all-non-whitespace block preserves `noDbl`. -/
theorem noDbl_append_nonWsLeft : ∀ (a b : List Char),
    (∀ c ∈ a, isWsChar c = false) → noDbl b = true → noDbl (a ++ b) = true
  | [], b, _, hb => hb
  | x :: xs, b, ha, hb => by
    rw [List.cons_append]
    exact noDbl_cons_of_headNotWs x (xs ++ b) (ha x (by simp))
      (noDbl_append_nonWsLeft xs b (fun c hc => ha c (by simp [hc])) hb)

/-- Appending after a block with a non-whitespace last character preserves
`noDbl`. -/
theorem noDbl_append_lastNotWs : ∀ (a b : List Char),
    noDbl a = true → noDbl b = true →
    (∀ x, a.getLast? = some x → isWsChar x = false) → noDbl (a ++ b) = true
  | [], b, _, hb, _ => hb
  | [x], b, _, hb, hlast => by
    rw [List.singleton_append]
    exact noDbl_cons_of_headNotWs x b (hlast x rfl) hb
  | x :: y :: xs, b, ha, hb, hlast => by
    rw [List.cons_append]
    have hxy : (isWsChar x && isWsChar y) = false := by
      by_contra hcon
      simp only [noDbl, Bool.and_eq_true] at ha
      have := ha.1
      simp only [Bool.not_eq_true'] at this
      exact hcon this
    have htail : noDbl ((y :: xs) ++ b) = true :=
      noDbl_append_lastNotWs (y :: xs) b (noDbl_tail x (y :: xs) ha) hb
        (fun z hz => hlast z (by rw [List.getLast?_cons_cons]; exact hz))
    rw [List.cons_append] at htail
    exact noDbl_cons_of_head x y (xs ++ b) hxy htail

/-- The output of `collapseWs` never contains two adjacent whitespace
characters. -/
theorem noDbl_collapseWs (l : List Char) : noDbl (collapseWs l) = true := by
  induction l using collapseWs.induct with
  | case1 => simp [collapseWs, noDbl]
  | case2 c l hws ih =>
    rw [collapseWs, if_pos hws]
    cases hdw : l.dropWhile isWsChar with
    | nil =>
      simp [collapseWs, noDbl]
    | cons d ds =>
      rw [hdw] at ih
      obtain ⟨m, hm⟩ := collapse_cons_head d ds
      have hd : isWsChar d = false := dropWhile_head_not isWsChar l ds d hdw
      rw [hm]
      rw [if_neg (by simp [hd])]
      rw [hm, if_neg (by simp [hd])] at ih
      exact noDbl_cons_of_head ' ' d m (by simp [hd]) ih
  | case3 c l hws ih =>
    rw [collapseWs, if_neg hws]
    cases l with
    | nil => simp [collapseWs, noDbl]
    | cons d ds =>
      obtain ⟨m, hm⟩ := collapse_cons_head d ds
      rw [hm] at ih ⊢
      by_cases hd : isWsChar d = true
      · rw [if_pos hd] at ih ⊢
        exact noDbl_cons_of_head c ' ' m
          (by simp only [Bool.not_eq_true] at hws; simp [hws]) ih
      · rw [if_neg hd] at ih ⊢
        exact noDbl_cons_of_head c d m
          (by simp only [Bool.not_eq_true] at hws; simp [hws]) ih

/-- Reduction of `rmTagWs` at a `'>'` not followed by whitespace. -/
theorem rmEq2 (c : Char) (rest : List Char) (hc : (c == '>') = true)
    (hemp : (rest.takeWhile isWsChar).isEmpty = true) :
    rmTagWs (c :: rest) = '>' :: rmTagWs rest := by
  simp only [rmTagWs]
  rw [if_pos hc, if_pos hemp]

/-- Reduction of `rmTagWs` at a `'>'`, whitespace run, `'<'` match. -/
theorem rmEq3 (c : Char) (rest r : List Char) (hc : (c == '>') = true)
    (hemp : ¬(rest.takeWhile isWsChar).isEmpty = true)
    (hdw : rest.dropWhile isWsChar = '<' :: r) :
    rmTagWs (c :: rest) = '>' :: '<' :: rmTagWs r := by
  simp only [rmTagWs]
  rw [if_pos hc, if_neg hemp]
  split
  · rename_i r2 hdw2
    rw [hdw] at hdw2
    cases hdw2
    rfl
  · rename_i hnone
    exact absurd rfl (by rw [hdw] at hnone; exact hnone r)

/-- Reduction of `rmTagWs` at a `'>'` with whitespace not followed by `'<'`. -/
theorem rmEq4 (c : Char) (rest : List Char) (hc : (c == '>') = true)
    (hemp : ¬(rest.takeWhile isWsChar).isEmpty = true)
    (hno : ∀ r, rest.dropWhile isWsChar = '<' :: r → False) :
    rmTagWs (c :: rest) = '>' :: rmTagWs rest := by
  simp only [rmTagWs]
  rw [if_pos hc, if_neg hemp]

/-- Reduction of `rmTagWs` away from `'>'`. -/
theorem rmEq5 (c : Char) (rest : List Char) (hc : ¬(c == '>') = true) :
    rmTagWs (c :: rest) = c :: rmTagWs rest := by
  simp only [rmTagWs]
  rw [if_neg hc]

/-- `rmTagWs` keeps the head character. -/
theorem rm_headq : ∀ l : List Char, (rmTagWs l).head? = l.head? := by
  intro l
  induction l using rmTagWs.induct with
  | case1 => simp [rmTagWs]
  | case2 c rest hc hemp ih =>
    rw [rmEq2 c rest hc hemp]
    have hceq : c = '>' := by simpa using hc
    rw [hceq]
    rfl
  | case3 c rest hc hemp r hdw ih =>
    rw [rmEq3 c rest r hc hemp hdw]
    have hceq : c = '>' := by simpa using hc
    rw [hceq]
    rfl
  | case4 c rest hc hemp hno ih =>
    rw [rmEq4 c rest hc hemp hno]
    have hceq : c = '>' := by simpa using hc
    rw [hceq]
    rfl
  | case5 c rest hc ih =>
    rw [rmEq5 c rest hc]
    rfl

/-- Whitespace in a `dropWhile`-survivor list came from the original list. -/
theorem mem_of_mem_dropWhile (p : Char → Bool) : ∀ (l : List Char) (x : Char),
    x ∈ l.dropWhile p → x ∈ l
  | [], x, h => h
  | c :: rest, x, h => by
    by_cases hc : p c = true
    · rw [List.dropWhile_cons_of_pos hc] at h
      exact List.mem_cons_of_mem c (mem_of_mem_dropWhile p rest x h)
    · rw [List.dropWhile_cons_of_neg hc] at h
      exact h

/-- Every character of `rmTagWs l` is a character of `l` or one of the two tag
brackets. -/
theorem mem_rmTagWs : ∀ (l : List Char) (x : Char),
    x ∈ rmTagWs l → x ∈ l ∨ x = '>' ∨ x = '<' := by
  intro l
  induction l using rmTagWs.induct with
  | case1 => simp [rmTagWs]
  | case2 c rest hc hemp ih =>
    intro x hx
    rw [rmEq2 c rest hc hemp] at hx
    rcases List.mem_cons.mp hx with h | h
    · exact Or.inr (Or.inl h)
    · rcases ih x h with h2 | h2
      · exact Or.inl (List.mem_cons_of_mem c h2)
      · exact Or.inr h2
  | case3 c rest hc hemp r hdw ih =>
    intro x hx
    rw [rmEq3 c rest r hc hemp hdw] at hx
    rcases List.mem_cons.mp hx with h | h
    · exact Or.inr (Or.inl h)
    · rcases List.mem_cons.mp h with h2 | h2
      · exact Or.inr (Or.inr h2)
      · rcases ih x h2 with h3 | h3
        · refine Or.inl (List.mem_cons_of_mem c ?_)
          exact mem_of_mem_dropWhile isWsChar rest x (by rw [hdw]; simp [h3])
        · exact Or.inr h3
  | case4 c rest hc hemp hno ih =>
    intro x hx
    rw [rmEq4 c rest hc hemp hno] at hx
    rcases List.mem_cons.mp hx with h | h
    · exact Or.inr (Or.inl h)
    · rcases ih x h with h2 | h2
      · exact Or.inl (List.mem_cons_of_mem c h2)
      · exact Or.inr h2
  | case5 c rest hc ih =>
    intro x hx
    rw [rmEq5 c rest hc] at hx
    rcases List.mem_cons.mp hx with h | h
    · exact Or.inl (by simp [h])
    · rcases ih x h with h2 | h2
      · exact Or.inl (List.mem_cons_of_mem c h2)
      · exact Or.inr h2

/-- `rmTagWs` preserves the absence of adjacent whitespace. -/
theorem noDbl_rmTagWs : ∀ l : List Char,
    noDbl l = true → noDbl (rmTagWs l) = true := by
  intro l
  induction l using rmTagWs.induct with
  | case1 => intro _; simp [rmTagWs, noDbl]
  | case2 c rest hc hemp ih =>
    intro hin
    rw [rmEq2 c rest hc hemp]
    exact noDbl_cons_of_headNotWs '>' (rmTagWs rest) (by decide)
      (ih (noDbl_tail c rest hin))
  | case3 c rest hc hemp r hdw ih =>
    intro hin
    rw [rmEq3 c rest r hc hemp hdw]
    have hr : noDbl r = true := by
      have h1 : noDbl (rest.dropWhile isWsChar) = true :=
        noDbl_dropWhile isWsChar rest (noDbl_tail c rest hin)
      rw [hdw] at h1
      exact noDbl_tail '<' r h1
    exact noDbl_cons_of_headNotWs '>' ('<' :: rmTagWs r) (by decide)
      (noDbl_cons_of_headNotWs '<' (rmTagWs r) (by decide) (ih hr))
  | case4 c rest hc hemp hno ih =>
    intro hin
    rw [rmEq4 c rest hc hemp hno]
    exact noDbl_cons_of_headNotWs '>' (rmTagWs rest) (by decide)
      (ih (noDbl_tail c rest hin))
  | case5 c rest hc ih =>
    intro hin
    rw [rmEq5 c rest hc]
    have htail : noDbl (rmTagWs rest) = true := ih (noDbl_tail c rest hin)
    cases rest with
    | nil => simp [rmTagWs, noDbl]
    | cons d ds =>
      cases hr : rmTagWs (d :: ds) with
      | nil => simp [noDbl]
      | cons x xs =>
        have hx : x = d := by
          have := rm_headq (d :: ds)
          rw [hr] at this
          simpa using this
        rw [hr] at htail
        refine noDbl_cons_of_head c x xs ?_ htail
        rw [hx]
        simp only [noDbl, Bool.and_eq_true] at hin
        simp only [Bool.not_eq_true'] at hin
        exact hin.1

/-- A whitespace character is not `'>'`. -/
theorem ws_not_gt (c : Char) (hws : isWsChar c = true) : (c == '>') = false := by
  by_cases h : c = '>'
  · subst h
    exact absurd hws (by decide)
  · simpa using h

/-- Characters kept by `takeWhile` satisfy the predicate. -/
theorem mem_takeWhile_sat (p : Char → Bool) : ∀ (l : List Char) (x : Char),
    x ∈ l.takeWhile p → p x = true
  | [], x, h => by simp [List.takeWhile] at h
  | c :: rest, x, h => by
    by_cases hc : p c = true
    · rw [List.takeWhile_cons_of_pos hc] at h
      rcases List.mem_cons.mp h with h2 | h2
      · subst h2; exact hc
      · exact mem_takeWhile_sat p rest x h2
    · rw [List.takeWhile_cons_of_neg hc] at h
      simp at h

/-- `rmTagWs` copies a leading all-whitespace block verbatim. -/
theorem rm_ws_run : ∀ (w x : List Char),
    (∀ c ∈ w, isWsChar c = true) → rmTagWs (w ++ x) = w ++ rmTagWs x
  | [], x, _ => by simp
  | a :: as, x, hall => by
    have ha : isWsChar a = true := hall a (by simp)
    have hgt : ¬(a == '>') = true := by
      rw [ws_not_gt a ha]
      simp
    rw [List.cons_append, rmEq5 a (as ++ x) hgt,
      rm_ws_run as x (fun c hc => hall c (by simp [hc]))]
    rfl

/-- Positions inside a block without `'>'` cannot start a tag gap. -/
theorem gap_skip : ∀ (w x : List Char),
    (∀ c ∈ w, (c == '>') = false) → hasGapRun (w ++ x) = hasGapRun x
  | [], x, _ => by simp
  | a :: as, x, hall => by
    rw [List.cons_append]
    show ((a == '>' && _ && _) || hasGapRun (as ++ x)) = hasGapRun x
    rw [hall a (by simp)]
    simp only [Bool.false_and, Bool.false_or]
    exact gap_skip as x (fun c hc => hall c (by simp [hc]))

/-- `dropWhile` jumps over a block of satisfied characters. -/
theorem dropWhile_append_all (p : Char → Bool) : ∀ (w x : List Char),
    (∀ c ∈ w, p c = true) → (w ++ x).dropWhile p = x.dropWhile p
  | [], x, _ => by simp
  | a :: as, x, hall => by
    rw [List.cons_append, List.dropWhile_cons_of_pos (hall a (by simp))]
    exact dropWhile_append_all p as x (fun c hc => hall c (by simp [hc]))

/-- If the whitespace run after a character is empty, a cons tail has a
non-whitespace head. -/
theorem takeWhile_isEmpty_head (d : Char) (ds : List Char)
    (h : ((d :: ds).takeWhile isWsChar).isEmpty = true) : isWsChar d = false := by
  by_cases hd : isWsChar d = true
  · rw [List.takeWhile_cons_of_pos hd] at h
    simp at h
  · simpa using hd

/-- The output of `rmTagWs` contains no tag gap: no `'>'`, nonempty whitespace
run, `'<'` remains. -/
theorem hasGapRun_rmTagWs : ∀ l : List Char, hasGapRun (rmTagWs l) = false := by
  intro l
  induction l using rmTagWs.induct with
  | case1 => simp [rmTagWs, hasGapRun]
  | case2 c rest hc hemp ih =>
    rw [rmEq2 c rest hc hemp]
    simp only [hasGapRun]
    cases rest with
    | nil =>
      rw [show rmTagWs [] = [] from by simp [rmTagWs]] at ih ⊢
      simp [hasGapRun, List.takeWhile, List.dropWhile]
    | cons d ds =>
      have hd : isWsChar d = false := takeWhile_isEmpty_head d ds hemp
      cases hr : rmTagWs (d :: ds) with
      | nil => simp [hasGapRun, List.takeWhile]
      | cons x xs =>
        have hx : x = d := by
          have := rm_headq (d :: ds)
          rw [hr] at this
          simpa using this
        have hxws : isWsChar x = false := by rw [hx]; exact hd
        rw [List.takeWhile_cons_of_neg (by simp [hxws])]
        rw [hr] at ih
        simp [ih]
  | case3 c rest hc hemp r hdw ih =>
    rw [rmEq3 c rest r hc hemp hdw]
    simp only [hasGapRun]
    rw [List.takeWhile_cons_of_neg (by decide)]
    simp [ih]
  | case4 c rest hc hemp hno ih =>
    rw [rmEq4 c rest hc hemp hno]
    have hWall : ∀ c2 ∈ rest.takeWhile isWsChar, isWsChar c2 = true :=
      fun c2 hc2 => mem_takeWhile_sat isWsChar rest c2 hc2
    have h0 := rm_ws_run (rest.takeWhile isWsChar) (rest.dropWhile isWsChar) hWall
    rw [List.takeWhile_append_dropWhile] at h0
    rw [h0] at ih ⊢
    simp only [hasGapRun]
    rw [dropWhile_append_all isWsChar _ _ hWall]
    have hhead : (((rmTagWs (rest.dropWhile isWsChar)).dropWhile isWsChar).head?
        == some '<') = false := by
      cases hD : rest.dropWhile isWsChar with
      | nil =>
        rw [show rmTagWs [] = [] from by simp [rmTagWs]]
        decide
      | cons d ds =>
        have hdws : isWsChar d = false := dropWhile_head_not isWsChar rest ds d hD
        have hdne : (d == '<') = false := by
          by_cases hdeq : d = '<'
          · exact absurd hD (by rw [hdeq]; intro hcon; exact hno ds hcon)
          · simpa using hdeq
        cases hr : rmTagWs (d :: ds) with
        | nil => decide
        | cons x xs =>
          have hx : x = d := by
            have := rm_headq (d :: ds)
            rw [hr] at this
            simpa using this
          rw [List.dropWhile_cons_of_neg (by simp [hx, hdws])]
          simp [hx, hdne]
    rw [hhead]
    simp [ih]
  | case5 c rest hc ih =>
    rw [rmEq5 c rest hc]
    simp only [hasGapRun]
    rw [show (c == '>') = false from by simpa using hc]
    simp [ih]

/-- `isPre` of a nonempty pattern fails on the empty list. -/
theorem isPre_nil (pat : List Char) (hp : pat.isEmpty = false) :
    isPre pat [] = false := by
  cases pat with
  | nil => simp at hp
  | cons p ps => simp [isPre]

/-- Every character of `replaceAllL pat rep l` comes from `l` or from `rep`. -/
theorem mem_replaceAllL (pat rep : List Char) : ∀ (l : List Char) (x : Char),
    x ∈ replaceAllL pat rep l → x ∈ l ∨ x ∈ rep := by
  intro l
  induction l using replaceAllL.induct pat rep with
  | case1 => simp [replaceAllL]
  | case2 c rest hp =>
    intro x hx
    rw [show replaceAllL pat rep (c :: rest) = c :: rest from by
      simp only [replaceAllL]; rw [if_pos hp]] at hx
    exact Or.inl hx
  | case3 c rest hp hpre ih =>
    intro x hx
    rw [show replaceAllL pat rep (c :: rest)
        = rep ++ replaceAllL pat rep (rest.drop (pat.length - 1)) from by
      simp only [replaceAllL]; rw [if_neg (by simp [hp]), if_pos hpre]] at hx
    rcases List.mem_append.mp hx with h | h
    · exact Or.inr h
    · rcases ih x h with h2 | h2
      · exact Or.inl (List.mem_cons_of_mem c (List.drop_subset _ _ h2))
      · exact Or.inr h2
  | case4 c rest hp hpre ih =>
    intro x hx
    rw [show replaceAllL pat rep (c :: rest) = c :: replaceAllL pat rep rest from by
      simp only [replaceAllL]; rw [if_neg (by simp [hp]), if_neg hpre]] at hx
    rcases List.mem_cons.mp hx with h | h
    · exact Or.inl (by simp [h])
    · rcases ih x h with h2 | h2
      · exact Or.inl (List.mem_cons_of_mem c h2)
      · exact Or.inr h2

/-- Reduction of `replaceAllL` at a match site. -/
theorem raEqPre (pat rep : List Char) (c : Char) (rest : List Char)
    (hp : pat.isEmpty = false) (hpre : isPre pat (c :: rest) = true) :
    replaceAllL pat rep (c :: rest)
      = rep ++ replaceAllL pat rep (rest.drop (pat.length - 1)) := by
  simp only [replaceAllL]
  rw [if_neg (by simp [hp]), if_pos hpre]

/-- Reduction of `replaceAllL` away from a match site. -/
theorem raEqSkip (pat rep : List Char) (c : Char) (rest : List Char)
    (hp : pat.isEmpty = false) (hpre : ¬isPre pat (c :: rest) = true) :
    replaceAllL pat rep (c :: rest) = c :: replaceAllL pat rep rest := by
  simp only [replaceAllL]
  rw [if_neg (by simp [hp]), if_neg hpre]

/-- The head of a global replacement: the replacement's head at a match site,
the original head otherwise. -/
theorem head_replaceAllL (pat rep : List Char) (hp : pat.isEmpty = false)
    (hrep : rep ≠ []) : ∀ l : List Char,
    (replaceAllL pat rep l).head?
      = if isPre pat l = true then rep.head? else l.head? := by
  intro l
  cases l with
  | nil =>
    rw [show replaceAllL pat rep [] = [] from by simp [replaceAllL]]
    rw [if_neg (by simp [isPre_nil pat hp])]
  | cons c rest =>
    by_cases hpre : isPre pat (c :: rest) = true
    · rw [raEqPre pat rep c rest hp hpre, if_pos hpre]
      cases rep with
      | nil => exact absurd rfl hrep
      | cons r0 rs => rfl
    · rw [raEqSkip pat rep c rest hp hpre, if_neg hpre]
      rfl

/-- A whitespace-free replacement keeps the output free of adjacent
whitespace. -/
theorem noDbl_replaceAllL (pat rep : List Char) (hp : pat.isEmpty = false)
    (hrep : rep ≠ []) (hws : ∀ c ∈ rep, isWsChar c = false) :
    ∀ l : List Char, noDbl l = true → noDbl (replaceAllL pat rep l) = true := by
  intro l
  induction l using replaceAllL.induct pat rep with
  | case1 => intro _; simp [replaceAllL, noDbl]
  | case2 c rest hpe => exact absurd hpe (by simp [hp])
  | case3 c rest hpe hpre ih =>
    intro hin
    rw [raEqPre pat rep c rest hp hpre]
    exact noDbl_append_nonWsLeft rep _ hws
      (ih (noDbl_drop _ rest (noDbl_tail c rest hin)))
  | case4 c rest hpe hpre ih =>
    intro hin
    rw [raEqSkip pat rep c rest hp hpre]
    have htail : noDbl (replaceAllL pat rep rest) = true :=
      ih (noDbl_tail c rest hin)
    cases hout : replaceAllL pat rep rest with
    | nil => simp [noDbl]
    | cons x xs =>
      rw [hout] at htail
      refine noDbl_cons_of_head c x xs ?_ htail
      have hh := head_replaceAllL pat rep hp hrep rest
      rw [hout] at hh
      by_cases hpre2 : isPre pat rest = true
      · rw [if_pos hpre2] at hh
        have hxrep : x ∈ rep := by
          cases rep with
          | nil => exact absurd rfl hrep
          | cons r0 rs =>
            have : x = r0 := by simpa using hh
            simp [this]
        rw [hws x hxrep]
        simp
      · rw [if_neg hpre2] at hh
        cases rest with
        | nil => simp at hh
        | cons d ds =>
          have hx : x = d := by simpa using hh
          subst hx
          simp only [noDbl, Bool.and_eq_true] at hin
          simp only [Bool.not_eq_true'] at hin
          exact hin.1

/-- `splitOnSub` never produces an empty group list. -/
theorem splitOnSub_ne_nil (pat : List Char) : ∀ l : List Char,
    splitOnSub pat l ≠ [] := by
  intro l
  induction l using splitOnSub.induct pat with
  | case1 => simp [splitOnSub]
  | case2 c rest hpe =>
    rw [show splitOnSub pat (c :: rest) = [c :: rest] from by
      simp only [splitOnSub]; rw [if_pos hpe]]
    simp
  | case3 c rest hpe hpre ih =>
    rw [show splitOnSub pat (c :: rest)
        = [] :: splitOnSub pat (rest.drop (pat.length - 1)) from by
      simp only [splitOnSub]; rw [if_neg (by simp [hpe]), if_pos hpre]]
    simp
  | case4 c rest hpe hpre hnil ih =>
    simp only [splitOnSub]
    rw [if_neg (by simp [hpe]), if_neg hpre, hnil]
    simp
  | case5 c rest hpe hpre g gs hG ih =>
    simp only [splitOnSub]
    rw [if_neg (by simp [hpe]), if_neg hpre, hG]
    simp

/-- A global literal rewrite is exactly: split at every occurrence, rejoin with
the replacement — the spec-side reading of `.replace(/pat/g, rep)`. -/
theorem replaceAllL_joinWith (pat rep : List Char) (hp : pat.isEmpty = false) :
    ∀ l : List Char, replaceAllL pat rep l = joinWith rep (splitOnSub pat l) := by
  intro l
  induction l using splitOnSub.induct pat with
  | case1 =>
    rw [show replaceAllL pat rep [] = [] from by simp [replaceAllL],
      show splitOnSub pat [] = [[]] from by simp [splitOnSub]]
    rfl
  | case2 c rest hpe => exact absurd hpe (by simp [hp])
  | case3 c rest hpe hpre ih =>
    rw [raEqPre pat rep c rest hp hpre,
      show splitOnSub pat (c :: rest)
          = [] :: splitOnSub pat (rest.drop (pat.length - 1)) from by
        simp only [splitOnSub]; rw [if_neg (by simp [hp]), if_pos hpre]]
    cases hG : splitOnSub pat (rest.drop (pat.length - 1)) with
    | nil => exact absurd hG (splitOnSub_ne_nil pat _)
    | cons g gs =>
      rw [hG] at ih
      rw [ih]
      rfl
  | case4 c rest hpe hpre hnil ih => exact absurd hnil (splitOnSub_ne_nil pat rest)
  | case5 c rest hpe hpre g gs hG ih =>
    rw [raEqSkip pat rep c rest hp hpre,
      show splitOnSub pat (c :: rest) = (c :: g) :: gs from by
        simp only [splitOnSub]; rw [if_neg (by simp [hp]), if_neg hpre, hG]]
    rw [hG] at ih
    rw [ih]
    cases gs with
    | nil => rfl
    | cons g2 gs2 => rfl

/-- Every character of `replaceFirstL pat rep l` comes from `l` or from
`rep`. -/
theorem mem_replaceFirstL (pat rep : List Char) : ∀ (l : List Char) (x : Char),
    x ∈ replaceFirstL pat rep l → x ∈ l ∨ x ∈ rep
  | [], x, hx => by simp [replaceFirstL] at hx
  | c :: rest, x, hx => by
    by_cases hpe : pat.isEmpty = true
    · rw [show replaceFirstL pat rep (c :: rest) = c :: rest from by
        simp only [replaceFirstL]; rw [if_pos hpe]] at hx
      exact Or.inl hx
    · by_cases hpre : isPre pat (c :: rest) = true
      · rw [show replaceFirstL pat rep (c :: rest)
            = rep ++ rest.drop (pat.length - 1) from by
          simp only [replaceFirstL]; rw [if_neg hpe, if_pos hpre]] at hx
        rcases List.mem_append.mp hx with h | h
        · exact Or.inr h
        · exact Or.inl (List.mem_cons_of_mem c (List.drop_subset _ _ h))
      · rw [show replaceFirstL pat rep (c :: rest)
            = c :: replaceFirstL pat rep rest from by
          simp only [replaceFirstL]; rw [if_neg hpe, if_neg hpre]] at hx
        rcases List.mem_cons.mp hx with h | h
        · exact Or.inl (by simp [h])
        · rcases mem_replaceFirstL pat rep rest x h with h2 | h2
          · exact Or.inl (List.mem_cons_of_mem c h2)
          · exact Or.inr h2

/-- The head of a first-occurrence replacement. -/
theorem head_replaceFirstL (pat rep : List Char) (hp : pat.isEmpty = false)
    (hrep : rep ≠ []) : ∀ l : List Char,
    (replaceFirstL pat rep l).head?
      = if isPre pat l = true then rep.head? else l.head? := by
  intro l
  cases l with
  | nil =>
    rw [show replaceFirstL pat rep [] = [] from rfl,
      if_neg (by simp [isPre_nil pat hp])]
  | cons c rest =>
    by_cases hpre : isPre pat (c :: rest) = true
    · rw [show replaceFirstL pat rep (c :: rest)
          = rep ++ rest.drop (pat.length - 1) from by
        simp only [replaceFirstL]; rw [if_neg (by simp [hp]), if_pos hpre],
        if_pos hpre]
      cases rep with
      | nil => exact absurd rfl hrep
      | cons r0 rs => rfl
    · rw [show replaceFirstL pat rep (c :: rest)
          = c :: replaceFirstL pat rep rest from by
        simp only [replaceFirstL]; rw [if_neg (by simp [hp]), if_neg hpre],
        if_neg hpre]
      rfl

/-- A first-occurrence replacement whose replacement has no internal adjacent
whitespace and non-whitespace edges preserves `noDbl`. -/
theorem noDbl_replaceFirstL (pat rep : List Char) (hp : pat.isEmpty = false)
    (hrep : rep ≠ []) (hnd : noDbl rep = true)
    (hhead : ∀ b, rep.head? = some b → isWsChar b = false)
    (hlast : ∀ b, rep.getLast? = some b → isWsChar b = false) :
    ∀ l : List Char, noDbl l = true → noDbl (replaceFirstL pat rep l) = true
  | [], _ => by simp [replaceFirstL, noDbl]
  | c :: rest, hin => by
    by_cases hpre : isPre pat (c :: rest) = true
    · rw [show replaceFirstL pat rep (c :: rest)
          = rep ++ rest.drop (pat.length - 1) from by
        simp only [replaceFirstL]; rw [if_neg (by simp [hp]), if_pos hpre]]
      exact noDbl_append_lastNotWs rep _ hnd
        (noDbl_drop _ rest (noDbl_tail c rest hin)) hlast
    · rw [show replaceFirstL pat rep (c :: rest)
          = c :: replaceFirstL pat rep rest from by
        simp only [replaceFirstL]; rw [if_neg (by simp [hp]), if_neg hpre]]
      have htail : noDbl (replaceFirstL pat rep rest) = true :=
        noDbl_replaceFirstL pat rep hp hrep hnd hhead hlast rest
          (noDbl_tail c rest hin)
      cases hout : replaceFirstL pat rep rest with
      | nil => simp [noDbl]
      | cons x xs =>
        rw [hout] at htail
        refine noDbl_cons_of_head c x xs ?_ htail
        have hh := head_replaceFirstL pat rep hp hrep rest
        rw [hout] at hh
        by_cases hpre2 : isPre pat rest = true
        · rw [if_pos hpre2] at hh
          have hxws : isWsChar x = false := hhead x (by rw [← hh]; rfl)
          rw [hxws]
          simp
        · rw [if_neg hpre2] at hh
          cases rest with
          | nil => simp at hh
          | cons d ds =>
            have hx : x = d := by simpa using hh
            subst hx
            simp only [noDbl, Bool.and_eq_true] at hin
            simp only [Bool.not_eq_true'] at hin
            exact hin.1

/-- `isPre` decides list-prefix. -/
theorem isPre_iff : ∀ (pat l : List Char), isPre pat l = true ↔ pat <+: l
  | [], l => by simp [isPre, List.nil_prefix]
  | p :: ps, [] => by
    simp only [isPre]
    constructor
    · intro h; cases h
    · intro h
      have := h.length_le
      simp at this
  | p :: ps, c :: cs => by
    simp only [isPre, Bool.and_eq_true, beq_iff_eq]
    rw [isPre_iff ps cs, List.cons_prefix_cons]

/-- When the pattern occurs somewhere in the input, the first-occurrence
replacement leaves the replacement string inside the output. -/
theorem replaceFirstL_infix (pat rep : List Char) (hp : pat.isEmpty = false) :
    ∀ l : List Char, pat <:+: l → rep <:+: replaceFirstL pat rep l
  | [], hin => by
    rw [List.infix_nil] at hin
    subst hin
    simp at hp
  | c :: rest, hin => by
    by_cases hpre : isPre pat (c :: rest) = true
    · rw [show replaceFirstL pat rep (c :: rest)
          = rep ++ rest.drop (pat.length - 1) from by
        simp only [replaceFirstL]; rw [if_neg (by simp [hp]), if_pos hpre]]
      exact ⟨[], rest.drop (pat.length - 1), by simp⟩
    · rw [show replaceFirstL pat rep (c :: rest)
          = c :: replaceFirstL pat rep rest from by
        simp only [replaceFirstL]; rw [if_neg (by simp [hp]), if_neg hpre]]
      rcases List.infix_cons_iff.mp hin with h | h
      · exact absurd ((isPre_iff pat (c :: rest)).mpr h) hpre
      · obtain ⟨s, t2, hst⟩ := replaceFirstL_infix pat rep hp rest h
        exact ⟨c :: s, t2, by rw [← hst]; simp⟩

/-- Decoding a base64 character recovers its 6-bit group. -/
theorem b64Val_b64Char : ∀ n, n < 64 → b64Val (b64Char n) = n := by decide

/-- No base64 alphabet character is the padding character. -/
theorem b64Char_ne_pad : ∀ n, n < 64 → ¬(b64Char n = '=') := by decide

/-- `atob ∘ btoa` is the identity on byte sequences: the encoding used for the
SVG data URL is lossless base64. -/
theorem base64_roundtrip : ∀ bs : List ℕ, (∀ b ∈ bs, b < 256) →
    base64DecodeChars (base64EncodeBytes bs) = bs := by
  intro bs
  induction bs using base64EncodeBytes.induct with
  | case1 => intro _; rfl
  | case2 a =>
    intro hb
    have ha : a < 256 := hb a (by simp)
    show base64DecodeChars [b64Char (a / 4), b64Char (a % 4 * 16), '=', '='] = [a]
    simp only [base64DecodeChars]
    rw [if_pos trivial]
    rw [b64Val_b64Char _ (by omega), b64Val_b64Char _ (by omega)]
    have : a / 4 * 4 + a % 4 * 16 / 16 = a := by omega
    rw [this]
  | case3 a b =>
    intro hb
    have ha : a < 256 := hb a (by simp)
    have hbb : b < 256 := hb b (by simp)
    show base64DecodeChars [b64Char (a / 4), b64Char (a % 4 * 16 + b / 16),
      b64Char (b % 16 * 4), '='] = [a, b]
    simp only [base64DecodeChars]
    rw [if_pos trivial]
    rw [b64Val_b64Char _ (by omega), b64Val_b64Char _ (by omega),
      b64Val_b64Char _ (by omega)]
    have e1 : a / 4 * 4 + (a % 4 * 16 + b / 16) / 16 = a := by omega
    have e2 : (a % 4 * 16 + b / 16) % 16 * 16 + b % 16 * 4 / 4 = b := by omega
    rw [e1, e2]
    rw [if_neg (b64Char_ne_pad _ (by omega))]
  | case4 a b c rest ih =>
    intro hb
    have ha : a < 256 := hb a (by simp)
    have hbb : b < 256 := hb b (by simp)
    have hc : c < 256 := hb c (by simp)
    show base64DecodeChars (b64Char (a / 4) :: b64Char (a % 4 * 16 + b / 16) ::
      b64Char (b % 16 * 4 + c / 64) :: b64Char (c % 64) ::
        base64EncodeBytes rest) = a :: b :: c :: rest
    simp only [base64DecodeChars]
    rw [b64Val_b64Char _ (by omega), b64Val_b64Char _ (by omega),
      b64Val_b64Char _ (by omega), b64Val_b64Char _ (by omega)]
    have e1 : a / 4 * 4 + (a % 4 * 16 + b / 16) / 16 = a := by omega
    have e2 : (a % 4 * 16 + b / 16) % 16 * 16 + (b % 16 * 4 + c / 64) / 4 = b := by
      omega
    have e3 : (b % 16 * 4 + c / 64) % 4 * 64 + c % 64 = c := by omega
    rw [e1, e2, e3, ih (fun x hx => hb x (by simp [hx]))]
    rw [if_neg (b64Char_ne_pad _ (by omega)), if_neg (b64Char_ne_pad _ (by omega))]

/-- Every whitespace character left in `cleanSvgString`'s output is a plain
space. -/
theorem clean_ws_space (s : String) :
    ∀ c ∈ (cleanSvgString s).data, isWsChar c = true → c = ' ' := by
  intro c hc hws
  have hc2 : c ∈ cleanStage5 s ∨ c ∈ svgDecl :=
    mem_replaceFirstL "<svg".data svgDecl (cleanStage5 s) c hc
  rcases hc2 with hc2 | hc2
  · unfold cleanStage5 at hc2
    rcases mem_replaceAllL _ _ _ c hc2 with hc3 | hc3
    · rcases mem_replaceAllL _ _ _ c hc3 with hc4 | hc4
      · rcases mem_rmTagWs _ c hc4 with hc5 | hc5
        · exact mem_collapseWs_ws _ c hc5 hws
        · rcases hc5 with h | h <;> (subst h; exact absurd hws (by decide))
      · have hall : ∀ x ∈ "href".data, isWsChar x = false := by decide
        exact absurd hws (by simp [hall c hc4])
    · have hall : ∀ x ∈ "xmlns".data, isWsChar x = false := by decide
      exact absurd hws (by simp [hall c hc3])
  · have hall : ∀ x ∈ svgDecl, isWsChar x = true → x = ' ' := by decide
    exact hall c hc2 hws

/-- `cleanSvgString`'s output has no adjacent whitespace pair. -/
theorem noDbl_cleanSvgString (s : String) :
    noDbl (cleanSvgString s).data = true := by
  refine noDbl_replaceFirstL "<svg".data svgDecl (by decide) (by decide)
    (by decide) ?_ ?_ (cleanStage5 s) ?_
  · intro b hb
    rw [show svgDecl.head? = some '<' from by decide] at hb
    cases hb
    decide
  · intro b hb
    rw [show svgDecl.getLast? = some '\"' from by decide] at hb
    cases hb
    decide
  · exact noDbl_replaceAllL _ _ (by decide) (by decide) (by decide) _
      (noDbl_replaceAllL _ _ (by decide) (by decide) (by decide) _
        (noDbl_rmTagWs _ (noDbl_collapseWs _)))

/-- C2: the normalization performed before encoding leaves no newline and no
run of two adjacent whitespace characters (every surviving whitespace character
is a single plain space); the tag-gap rewrite leaves no `'>'`, whitespace,
`'<'` sequence; the two namespace rewrites replace every left-to-right
occurrence of `xlink:href` by `href` and of `xmlns:xlink` by `xmlns`; when the
markup contains `<svg`, the final output carries the default
`xmlns="http://www.w3.org/2000/svg"` declaration on it; and the rasterizer's
data URL is `data:image/svg+xml;base64,` followed by a lossless base64
encoding of the (UTF-8 bytes of the) markup. -/
theorem C2_normalize_and_encode (s t u : String) :
    ('\n' ∉ (cleanSvgString s).data)
  ∧ (∀ c ∈ (cleanSvgString s).data, isWsChar c = true → c = ' ')
  ∧ noDbl (cleanSvgString s).data = true
  ∧ hasGapRun (rmTagWs t.data) = false
  ∧ replaceAllL "xlink:href".data "href".data t.data
      = joinWith "href".data (splitOnSub "xlink:href".data t.data)
  ∧ replaceAllL "xmlns:xlink".data "xmlns".data t.data
      = joinWith "xmlns".data (splitOnSub "xmlns:xlink".data t.data)
  ∧ ("<svg".data <:+: cleanStage5 s → svgDecl <:+: (cleanSvgString s).data)
  ∧ (svgToBase64 u).data.take 26 = "data:image/svg+xml;base64,".data
  ∧ base64DecodeChars ((svgToBase64 u).data.drop 26) = utf8Bytes u := by
  have hbytes : ∀ b ∈ utf8Bytes u, b < 256 := by
    intro b hb
    obtain ⟨x, hx, rfl⟩ := List.mem_map.mp hb
    exact UInt8.toNat_lt x
  have hdata : (svgToBase64 u).data
      = "data:image/svg+xml;base64,".data ++ base64EncodeBytes (utf8Bytes u) := by
    show ("data:image/svg+xml;base64,"
      ++ (⟨base64EncodeBytes (utf8Bytes u)⟩ : String)).data = _
    rw [String.data_append]
  have hlen : ("data:image/svg+xml;base64,").data.length = 26 := by decide
  refine ⟨?_, clean_ws_space s, noDbl_cleanSvgString s, hasGapRun_rmTagWs t.data,
    replaceAllL_joinWith _ _ (by decide) t.data,
    replaceAllL_joinWith _ _ (by decide) t.data, ?_, ?_, ?_⟩
  · intro h
    exact absurd (clean_ws_space s '\n' h (by decide)) (by decide)
  · intro h
    exact replaceFirstL_infix "<svg".data svgDecl (by decide) (cleanStage5 s) h
  · rw [hdata, List.take_left' hlen]
  · rw [hdata, List.drop_left' hlen]
    exact base64_roundtrip (utf8Bytes u) hbytes

/-- C2 witness: on the markup `<svg/>` the `<svg` tag is found and the default
namespace declaration appears in the cleaned output. -/
theorem C2_normalize_and_encode_witness :
    "<svg".data <:+: cleanStage5 "<svg/>"
  ∧ svgDecl <:+: (cleanSvgString "<svg/>").data := by
  have h1 : cleanStage5 "<svg/>" = "<svg/>".data := by
    simp [cleanStage5, nlToSpace, collapseWs, rmTagWs, replaceAllL, isPre, isWsChar]
  have h2 : "<svg".data <:+: cleanStage5 "<svg/>" := by
    rw [h1]
    decide
  exact ⟨h2, (C2_normalize_and_encode "<svg/>" "" "").2.2.2.2.2.2.1 h2⟩
